import Mathlib

/-!
Verification of the character-stream classification and text-reconstruction
core of the pdf-processor-tool repository.

The Python source is shallowly embedded: Python `str` values are modelled as
`List Char` (over the ASCII fragment relevant to the character classes used by
the source's regexes), Python floats as exact rationals `ℚ`, Python lists as
`List`, Python dicts as association lists in insertion order, and code that can
raise as `Except`.  Every definition follows the corresponding source function
statement by statement; the file names match the source symbols where Lean
allows it.
-/

-- The Batteries rational primitives are `@[irreducible]`, which blocks the
-- kernel evaluation of the concrete test vectors below; restore the default
-- reducibility so that `decide` can compute with exact rationals.
set_option allowUnsafeReducibility true in
attribute [semireducible] Rat.mul Rat.add Rat.sub Rat.inv Rat.ofScientific

namespace PdfProc

/-- Model of a Python `str`: a list of characters. -/
abbrev PyStr := List Char

/-- Python whitespace (`str.strip`, regex `\s`) over the ASCII fragment:
space, tab, newline, carriage return, vertical tab, form feed. -/
def isPySpace (c : Char) : Bool :=
  c = ' ' || c = '\t' || c = '\n' || c = '\r' || c = '\x0b' || c = '\x0c'

/-- Source `str.lstrip()` with default (whitespace) argument. -/
def pyLstrip (s : PyStr) : PyStr := s.dropWhile isPySpace

/-- Source `str.rstrip()` with default (whitespace) argument. -/
def pyRstrip (s : PyStr) : PyStr := (s.reverse.dropWhile isPySpace).reverse

/-- Source `str.strip()` with default (whitespace) argument. -/
def pyStrip (s : PyStr) : PyStr := pyRstrip (pyLstrip s)

/-- Source `str.rstrip("\n\r")`, used by `RegexNoiseFilter.filter_text` on each line. -/
def pyRstripNl (s : PyStr) : PyStr :=
  (s.reverse.dropWhile (fun c => c = '\n' || c = '\r')).reverse

/-- Python `str.splitlines()` restricted to the `'\n'` separator (the model's
line terminator): no trailing empty line is produced for a terminal `'\n'`,
and the empty string yields no lines. -/
def pySplitlinesAux : List Char → PyStr → List PyStr
  | acc, [] => [acc.reverse]
  | acc, c :: rest =>
      if c = '\n' then
        acc.reverse :: (if rest.isEmpty then [] else pySplitlinesAux [] rest)
      else pySplitlinesAux (c :: acc) rest

/-- Source `str.splitlines()` (see `pySplitlinesAux`). -/
def pySplitlines (s : PyStr) : List PyStr :=
  if s.isEmpty then [] else pySplitlinesAux [] s

/-- Source `"\n".join(lines)`. -/
def joinNl (lines : List PyStr) : PyStr := (lines.intersperse ['\n']).flatten

/-- Python `str.upper()` over the ASCII fragment. -/
def pyUpper (s : PyStr) : PyStr := s.map Char.toUpper

/-- Regex word character `\w` over the ASCII fragment: `[A-Za-z0-9_]`. -/
def isWordChar (c : Char) : Bool := c.isAlphanum || c = '_'

section Geometry

/-- An axis-aligned rectangle `(x0, y0, x1, y1)`; in the pdfplumber
convention used by the source, `y0 = top` and `y1 = bottom`. -/
structure BBox where
  x0 : ℚ
  y0 : ℚ
  x1 : ℚ
  y1 : ℚ
  deriving DecidableEq, Repr

/-- Source `TextExtractor._bbox_overlap`: reports no overlap exactly when one box
lies strictly to the left of, or strictly above, the other. -/
def bboxOverlap (bbox1 bbox2 : BBox) : Bool :=
  if bbox1.x1 < bbox2.x0 || bbox2.x1 < bbox1.x0 then false
  else if bbox1.y1 < bbox2.y0 || bbox2.y1 < bbox1.y0 then false
  else true

/-- A point lies in a closed rectangle. -/
def memBBox (p : ℚ × ℚ) (b : BBox) : Prop :=
  b.x0 ≤ p.1 ∧ p.1 ≤ b.x1 ∧ b.y0 ≤ p.2 ∧ p.2 ≤ b.y1

/-- A pdfplumber character record: glyph text, horizontal extent `x0..x1`,
vertical extent `top..bottom` (top-left origin), and font size. -/
structure CharRec where
  text : PyStr
  x0 : ℚ
  x1 : ℚ
  top : ℚ
  bottom : ℚ
  size : ℚ
  deriving DecidableEq, Repr

/-- An exclusion zone handed to `TextExtractor`: a bbox in PDF points plus the
`type` (`figure`/`table`) and `source` (`caption`/`visual`/...) tags. -/
structure Zone where
  bbox : BBox
  type : PyStr
  source : PyStr
  deriving DecidableEq, Repr

/-- The padding selection of `_filter_chars_by_exclusion_zones`: caption-based
figures use the caption shrink, other figures the visual shrink, everything
else (tables, unknown) zero. -/
def paddingShrink (captionShrink visualShrink : ℚ) (zone : Zone) : ℚ :=
  if zone.type = "figure".data then
    if zone.source = "caption".data then captionShrink else visualShrink
  else 0

/-- The padding-adjusted bbox of a zone (`adjusted_bbox` in the source):
shrink inward by the padding when it is positive, else the exact bbox. -/
def adjustedBBox (captionShrink visualShrink : ℚ) (zone : Zone) : BBox :=
  let p := paddingShrink captionShrink visualShrink zone
  if 0 < p then
    ⟨zone.bbox.x0 + p, zone.bbox.y0 + p, zone.bbox.x1 - p, zone.bbox.y1 - p⟩
  else zone.bbox

/-- The bbox of a character as built in `_filter_chars_by_exclusion_zones`:
`(x0, top, x1, bottom)`. -/
def charBBox (c : CharRec) : BBox := ⟨c.x0, c.top, c.x1, c.bottom⟩

/-- The inner zone loop of `_filter_chars_by_exclusion_zones` (the
`is_excluded` flag with early `break`). -/
def charExcluded (captionShrink visualShrink : ℚ) (zones : List Zone)
    (c : CharRec) : Bool :=
  zones.any fun zone =>
    bboxOverlap (charBBox c) (adjustedBBox captionShrink visualShrink zone)

/-- The character loop of `_filter_chars_by_exclusion_zones`: append each
character that is not excluded by any zone. -/
def exclusionLoop (captionShrink visualShrink : ℚ) (zones : List Zone) :
    List CharRec → List CharRec
  | [] => []
  | c :: rest =>
      if charExcluded captionShrink visualShrink zones c then
        exclusionLoop captionShrink visualShrink zones rest
      else c :: exclusionLoop captionShrink visualShrink zones rest

/-- Source `TextExtractor._filter_chars_by_exclusion_zones`: the early return for an
empty zone list, then the append-if-not-excluded loop. -/
def filterCharsByExclusionZones (captionShrink visualShrink : ℚ)
    (chars : List CharRec) (zones : List Zone) : List CharRec :=
  if zones.isEmpty then chars
  else exclusionLoop captionShrink visualShrink zones chars

end Geometry

section NoiseFilterDefs

/-- A one-dimensional noise band, `{y_min, y_max}` or `{x_min, x_max}`. -/
structure Band where
  lo : ℚ
  hi : ℚ
  deriving DecidableEq, Repr

/-- The zone configuration captured by `NoiseFilter.__init__`. -/
structure NoiseZones where
  headerZones : List Band
  footerZones : List Band
  leftMarginZones : List Band
  rightMarginZones : List Band
  deriving DecidableEq, Repr

/-- Source `NoiseFilter._is_in_noise_zone`: header/footer bands are checked on the
character's `top`, margin bands on its `x0` (point containment, inclusive). -/
def isInNoiseZone (nz : NoiseZones) (c : CharRec) : Bool :=
  nz.headerZones.any (fun z => z.lo ≤ c.top && c.top ≤ z.hi) ||
  nz.footerZones.any (fun z => z.lo ≤ c.top && c.top ≤ z.hi) ||
  nz.leftMarginZones.any (fun z => z.lo ≤ c.x0 && c.x0 ≤ z.hi) ||
  nz.rightMarginZones.any (fun z => z.lo ≤ c.x0 && c.x0 ≤ z.hi)

/-- The character loop of `NoiseFilter.filter_characters`. -/
def noiseLoop (nz : NoiseZones) : List CharRec → List CharRec
  | [] => []
  | c :: rest =>
      if isInNoiseZone nz c then noiseLoop nz rest
      else c :: noiseLoop nz rest

/-- Source `NoiseFilter.filter_characters`: early return on an empty list, then the
append-if-not-in-zone loop. -/
def filterCharacters (nz : NoiseZones) (chars : List CharRec) : List CharRec :=
  if chars.isEmpty then [] else noiseLoop nz chars

end NoiseFilterDefs

section RegexFilterDefs

/-- Source `^\s*\d+\s*$` — a standalone (page) number line. -/
def reOnlyNumber (s : PyStr) : Bool :=
  let t1 := s.dropWhile isPySpace
  let (ds, t2) := t1.span Char.isDigit
  !ds.isEmpty && (t2.dropWhile isPySpace).isEmpty

/-- Source `^\s*\*\s*\d{6,}\s*\*\s*$` — a starred page code line. -/
def rePageCodeStars (s : PyStr) : Bool :=
  match s.dropWhile isPySpace with
  | '*' :: t1 =>
      let t2 := t1.dropWhile isPySpace
      let (ds, t3) := t2.span Char.isDigit
      if ds.length < 6 then false
      else
        match t3.dropWhile isPySpace with
        | '*' :: t4 => (t4.dropWhile isPySpace).isEmpty
        | _ => false
  | _ => false

/-- Source `^[\s\.]{6,}$` — a dots-only line. -/
def reDotsLine (s : PyStr) : Bool :=
  decide (6 ≤ s.length) && s.all (fun c => isPySpace c || c = '.')

/-- Source `^[\W_]{5,}$` — a punctuation-only line (`[\W_]` is exactly the
non-alphanumeric characters). -/
def reOnlyPunct (s : PyStr) : Bool :=
  decide (5 ≤ s.length) && s.all (fun c => !c.isAlphanum)

/-- Case-insensitive literal prefix match; returns the rest on success. -/
def caselessDrop : PyStr → PyStr → Option PyStr
  | [], s => some s
  | _, [] => none
  | p :: ps, c :: cs => if p.toLower = c.toLower then caselessDrop ps cs else none

/-- Does any suffix of the string satisfy the predicate (regex `search`)? -/
def anySuffix (pred : PyStr → Bool) : PyStr → Bool
  | [] => pred []
  | c :: rest => pred (c :: rest) || anySuffix pred rest

/-- Case-insensitive substring search. -/
def containsCaseless (pat s : PyStr) : Bool :=
  anySuffix (fun t => (caselessDrop pat t).isSome) s

/-- Matches `\d{4}/\d{2}/[A-Z]/[A-Z]/\d{2}\b` (with `re.I`, `[A-Z]` also
matches lowercase) at the start of the string. -/
def matchExamCode : PyStr → Bool
  | d1 :: d2 :: d3 :: d4 :: '/' :: e1 :: e2 :: '/' :: a1 :: '/' :: a2 :: '/'
      :: f1 :: f2 :: rest =>
      (d1.isDigit && d2.isDigit && d3.isDigit && d4.isDigit &&
       e1.isDigit && e2.isDigit && a1.isAlpha && a2.isAlpha &&
       f1.isDigit && f2.isDigit) &&
      (match rest with
       | [] => true
       | r :: _ => !isWordChar r)
  | _ => false

/-- Search for the exam code with the leading `\b` word boundary. -/
def searchExamCode : Bool → PyStr → Bool
  | _, [] => false
  | prevWord, c :: rest =>
      (!prevWord && matchExamCode (c :: rest)) ||
      searchExamCode (isWordChar c) rest

/-- Source `_RE_COPYRIGHT_LINE.search`: `UCLES|Cambridge|\b\d{4}/\d{2}/[A-Z]/[A-Z]/\d{2}\b`
with `re.I`. -/
def reCopyright (s : PyStr) : Bool :=
  containsCaseless "ucles".data s || containsCaseless "cambridge".data s ||
  searchExamCode false s

/-- Matches `TURN\s+OVER` (case-insensitive) at the start of the string; the
optional brackets and surrounding `\s*` of `_RE_TURN_OVER` never constrain a
`search`, so the search succeeds exactly when this matches at some suffix. -/
def matchTurnOverCore (s : PyStr) : Bool :=
  match caselessDrop "turn".data s with
  | some r =>
      let (ws, r2) := r.span isPySpace
      !ws.isEmpty && (caselessDrop "over".data r2).isSome
  | none => false

/-- Source `_RE_TURN_OVER.search`. -/
def reTurnOver (s : PyStr) : Bool := anySuffix matchTurnOverCore s

/-- Source `\s*$` tail check. -/
def wsToEnd (s : PyStr) : Bool := (s.dropWhile isPySpace).isEmpty

/-- Source `_RE_PAGE_METADATA.match` (case-insensitive, anchored):
`^(PAGE\s+\d+|Exclusion zones:\s*\d+|Characters:\s*\d+\s*/\s*\d+|={10,})\s*$`. -/
def rePageMetadata (s : PyStr) : Bool :=
  let altPage :=
    match caselessDrop "page".data s with
    | some r =>
        let (ws, r2) := r.span isPySpace
        if ws.isEmpty then false
        else
          let (ds, r3) := r2.span Char.isDigit
          !ds.isEmpty && wsToEnd r3
    | none => false
  let altZones :=
    match caselessDrop "exclusion zones:".data s with
    | some r =>
        let (ds, r2) := (r.dropWhile isPySpace).span Char.isDigit
        !ds.isEmpty && wsToEnd r2
    | none => false
  let altChars :=
    match caselessDrop "characters:".data s with
    | some r =>
        let (ds, r2) := (r.dropWhile isPySpace).span Char.isDigit
        if ds.isEmpty then false
        else
          match r2.dropWhile isPySpace with
          | '/' :: r3 =>
              let (ds2, r4) := (r3.dropWhile isPySpace).span Char.isDigit
              !ds2.isEmpty && wsToEnd r4
          | _ => false
    | none => false
  let altSep :=
    let (eqs, r) := s.span (fun c => c = '=')
    decide (10 ≤ eqs.length) && wsToEnd r
  altPage || altZones || altChars || altSep

/-- Source `RegexNoiseFilter._MIRRORED_WARNING_TOKENS`. -/
def mirroredWarningTokens : List PyStr :=
  ["NIGRAM", "SIHT", "NI", "ETIRW", "TON", "OD",
   "KCALB", "EGAP", "DNA", "KNALB"].map String.data

/-- Source `RegexNoiseFilter._NOISE_CODES`. -/
def noiseCodes : List PyStr := ["DFD", "DC", "WW", "CGW"].map String.data

/-- Source `[t for t in re.split(r"\s+", line.strip()) if t]`: the maximal
non-whitespace runs of the string. -/
def wsTokensAux : PyStr → List Char → List PyStr
  | [], cur => if cur.isEmpty then [] else [cur.reverse]
  | c :: rest, cur =>
      if isPySpace c then
        if cur.isEmpty then wsTokensAux rest []
        else cur.reverse :: wsTokensAux rest []
      else wsTokensAux rest (c :: cur)

/-- See `wsTokensAux`. -/
def wsTokens (s : PyStr) : List PyStr := wsTokensAux s []

/-- Number of tokens of the line that belong to the mirrored-token set
(membership is tested on the uppercased token). -/
def mirroredCount (tokens : List PyStr) : ℕ :=
  (tokens.filter (fun t => mirroredWarningTokens.contains (pyUpper t))).length

/-- Source `RegexNoiseFilter._looks_like_mirrored_warning`: flag when at least
`max(2, len(tokens) // 2)` tokens are mirrored (floor division). -/
def looksLikeMirroredWarning (line : PyStr) : Bool :=
  let tokens := wsTokens (pyStrip line)
  if tokens.isEmpty then false
  else decide (max 2 (tokens.length / 2) ≤ mirroredCount tokens)

/-- The toggles of `RegexNoiseFilter.__init__`. -/
structure RegexFilterConfig where
  filterPageNumbers : Bool
  filterCopyright : Bool
  filterMirrored : Bool
  filterTurnOver : Bool
  filterCidGarbage : Bool
  filterDotsPunct : Bool
  filterPageMetadata : Bool
  deriving DecidableEq, Repr

/-- The default configuration (all toggles enabled). -/
def defaultRegexConfig : RegexFilterConfig :=
  ⟨true, true, true, true, true, true, true⟩

/-- Source `RegexNoiseFilter.should_filter_line`. -/
def shouldFilterLine (cfg : RegexFilterConfig) (line : PyStr) : Bool :=
  if (pyStrip line).isEmpty then false
  else if cfg.filterPageNumbers && reOnlyNumber line then true
  else if cfg.filterPageNumbers && rePageCodeStars line then true
  else if cfg.filterDotsPunct && reDotsLine line then true
  else if cfg.filterDotsPunct && reOnlyPunct line then true
  else if cfg.filterCopyright && reCopyright line then true
  else if cfg.filterTurnOver && reTurnOver line then true
  else if cfg.filterPageMetadata && rePageMetadata line then true
  else if cfg.filterMirrored && looksLikeMirroredWarning line then true
  else if cfg.filterMirrored &&
      (mirroredWarningTokens.contains (pyUpper (pyStrip line)) ||
       noiseCodes.contains (pyUpper (pyStrip line))) then true
  else false

/-- Matches `\(cid:\d+\)` at the start of the string; returns the rest. -/
def matchCid : PyStr → Option PyStr
  | '(' :: 'c' :: 'i' :: 'd' :: ':' :: rest =>
      let (ds, r2) := rest.span Char.isDigit
      if ds.isEmpty then none
      else
        match r2 with
        | ')' :: r3 => some r3
        | _ => none
  | _ => none

/-- Source `re.sub(_RE_CID_GARBAGE, "", line)`: left-to-right non-overlapping
removal (fuelled by the string length; each step consumes at least one
character). -/
def subCidAux : ℕ → PyStr → PyStr
  | 0, s => s
  | _ + 1, [] => []
  | fuel + 1, c :: rest =>
      match matchCid (c :: rest) with
      | some r => subCidAux fuel r
      | none => c :: subCidAux fuel rest

/-- See `subCidAux`. -/
def subCid (s : PyStr) : PyStr := subCidAux s.length s

/-- Matches `\^\{\*\d{6,}\*\}` at the start of the string; returns the rest. -/
def matchLatexPageCode : PyStr → Option PyStr
  | '^' :: '{' :: '*' :: rest =>
      let (ds, r2) := rest.span Char.isDigit
      if ds.length < 6 then none
      else
        match r2 with
        | '*' :: '}' :: r3 => some r3
        | _ => none
  | _ => none

/-- Source `re.sub(r"\^\{\*\d{6,}\*\}", "", line)`. -/
def subLatexPageCodeAux : ℕ → PyStr → PyStr
  | 0, s => s
  | _ + 1, [] => []
  | fuel + 1, c :: rest =>
      match matchLatexPageCode (c :: rest) with
      | some r => subLatexPageCodeAux fuel r
      | none => c :: subLatexPageCodeAux fuel rest

/-- See `subLatexPageCodeAux`. -/
def subLatexPageCode (s : PyStr) : PyStr := subLatexPageCodeAux s.length s

/-- Matches `[\^_]\{\}` at the start of the string; returns the rest. -/
def matchEmptyGroup : PyStr → Option PyStr
  | c :: '{' :: '}' :: r => if c = '^' || c = '_' then some r else none
  | _ => none

/-- Source `re.sub(r"[\^_]\{\}", "", line)`. -/
def subEmptyGroupsAux : ℕ → PyStr → PyStr
  | 0, s => s
  | _ + 1, [] => []
  | fuel + 1, c :: rest =>
      match matchEmptyGroup (c :: rest) with
      | some r => subEmptyGroupsAux fuel r
      | none => c :: subEmptyGroupsAux fuel rest

/-- See `subEmptyGroupsAux`. -/
def subEmptyGroups (s : PyStr) : PyStr := subEmptyGroupsAux s.length s

/-- Source `re.sub(r"\.{6,}", "...", line)`: collapse every maximal dot run of
length at least six to three dots. -/
def subDotRunsAux : ℕ → PyStr → PyStr
  | 0, s => s
  | _ + 1, [] => []
  | fuel + 1, c :: rest =>
      if c = '.' then
        let (dots, r2) := (c :: rest).span (fun d => d = '.')
        if 6 ≤ dots.length then '.' :: '.' :: '.' :: subDotRunsAux fuel r2
        else c :: subDotRunsAux fuel rest
      else c :: subDotRunsAux fuel rest

/-- See `subDotRunsAux`. -/
def subDotRuns (s : PyStr) : PyStr := subDotRunsAux s.length s

/-- Source `re.sub(r"\s+", " ", line)`: collapse every maximal whitespace run to a
single space. -/
def collapseWsAux : ℕ → PyStr → PyStr
  | 0, s => s
  | _ + 1, [] => []
  | fuel + 1, c :: rest =>
      if isPySpace c then ' ' :: collapseWsAux fuel (rest.dropWhile isPySpace)
      else c :: collapseWsAux fuel rest

/-- See `collapseWsAux`. -/
def collapseWs (s : PyStr) : PyStr := collapseWsAux s.length s

/-- Source `RegexNoiseFilter.clean_line`. -/
def cleanLine (cfg : RegexFilterConfig) (line : PyStr) : PyStr :=
  let l1 := if cfg.filterCidGarbage then subCid line else line
  let l2 := subLatexPageCode l1
  let l3 := subEmptyGroups l2
  let l4 := subDotRuns l3
  pyStrip (collapseWs l4)

/-- The per-line pass of `RegexNoiseFilter.filter_text`: keep blank lines as
empty strings, drop flagged lines, clean kept lines and drop those that
become empty. -/
def processLines (cfg : RegexFilterConfig) : List PyStr → List PyStr
  | [] => []
  | raw :: rest =>
      let line := pyRstripNl raw
      if (pyStrip line).isEmpty then [] :: processLines cfg rest
      else if shouldFilterLine cfg line then processLines cfg rest
      else
        let cl := cleanLine cfg line
        if cl.isEmpty then processLines cfg rest
        else cl :: processLines cfg rest

/-- The blank-collapsing pass of `filter_text` (the `blank` flag). -/
def collapseBlanks : Bool → List PyStr → List PyStr
  | _, [] => []
  | blank, l :: rest =>
      if l.isEmpty then
        if blank then collapseBlanks true rest
        else [] :: collapseBlanks true rest
      else l :: collapseBlanks false rest

/-- Source `RegexNoiseFilter.filter_text`. -/
def filterText (cfg : RegexFilterConfig) (text : PyStr) : PyStr :=
  pyStrip (joinNl (collapseBlanks false (processLines cfg (pySplitlines text))))

end RegexFilterDefs

section LatexNormalizerDefs

/-- Matches `[A-Z][a-z]?` at the start of the string (greedy optional
lowercase letter); returns the element symbol and the rest. -/
def matchElement : PyStr → Option (PyStr × PyStr)
  | c :: rest =>
      if c.isUpper then
        match rest with
        | d :: r2 => if d.isLower then some ([c, d], r2) else some ([c], rest)
        | [] => some ([c], [])
      else none
  | [] => none

/-- Matches `\^{\d+}` at the start of the string; returns the digits and the
rest. -/
def matchSupGroup : PyStr → Option (PyStr × PyStr)
  | '^' :: '{' :: rest =>
      let (ds, r2) := rest.span Char.isDigit
      if ds.isEmpty then none
      else
        match r2 with
        | '}' :: r3 => some (ds, r3)
        | _ => none
  | _ => none

/-- Matches `_\{\d+\}` at the start of the string; returns the digits and the
rest. -/
def matchSubGroup : PyStr → Option (PyStr × PyStr)
  | '_' :: '{' :: rest =>
      let (ds, r2) := rest.span Char.isDigit
      if ds.isEmpty then none
      else
        match r2 with
        | '}' :: r3 => some (ds, r3)
        | _ => none
  | _ => none

/-- Matches `_NUCLIDE_SPLIT_PATTERN`
(`(\^{(\d+)})(_\{(\d+)\})(\^{(\d+)})(_\{(\d+)\})([A-Z][a-z]?)`) at the start
of the string; returns the replacement produced by `merge_nuclide`
(`^{A1A2}_{Z1Z2}Element`, digit runs concatenated as strings) and the rest. -/
def matchNuclideSplit (s : PyStr) : Option (PyStr × PyStr) :=
  match matchSupGroup s with
  | none => none
  | some (a1, r1) =>
      match matchSubGroup r1 with
      | none => none
      | some (z1, r2) =>
          match matchSupGroup r2 with
          | none => none
          | some (a2, r3) =>
              match matchSubGroup r3 with
              | none => none
              | some (z2, r4) =>
                  match matchElement r4 with
                  | none => none
                  | some (el, r5) =>
                      some (['^', '{'] ++ (a1 ++ a2) ++ ['}', '_', '{'] ++
                            (z1 ++ z2) ++ ['}'] ++ el, r5)

/-- Source `LatexNormalizer._normalize_nuclides`: `re.sub` of the split-nuclide
pattern with the merging replacement, scanning left to right. -/
def normalizeNuclidesAux : ℕ → PyStr → PyStr
  | 0, s => s
  | _ + 1, [] => []
  | fuel + 1, c :: rest =>
      match matchNuclideSplit (c :: rest) with
      | some (rep, r) => rep ++ normalizeNuclidesAux fuel r
      | none => c :: normalizeNuclidesAux fuel rest

/-- See `normalizeNuclidesAux`. -/
def normalizeNuclides (s : PyStr) : PyStr := normalizeNuclidesAux s.length s

/-- Matches `_NUCLIDE_NORMALIZED_PATTERN`
(`\^{(\d+)}_\{(\d+)\}(\\mathrm\{)?([A-Z][a-z]?)`) at the start of the string;
returns the replacement produced by `wrap_nuclide_element` (the match itself
when `\mathrm{` is already present, else the element wrapped in `\mathrm{`)
and the rest. -/
def matchNuclideNormalized (s : PyStr) : Option (PyStr × PyStr) :=
  match matchSupGroup s with
  | none => none
  | some (mass, r1) =>
      match matchSubGroup r1 with
      | none => none
      | some (atomic, r2) =>
          let nuclidePart : PyStr :=
            ['^', '{'] ++ mass ++ ['}', '_', '{'] ++ atomic ++ ['}']
          match r2 with
          | '\\' :: 'm' :: 'a' :: 't' :: 'h' :: 'r' :: 'm' :: '{' :: r3 =>
              match matchElement r3 with
              | some (el, r4) =>
                  -- already wrapped: group(0) is returned unchanged
                  some (nuclidePart ++ "\\mathrm".data ++ ['{'] ++ el, r4)
              | none =>
                  -- the optional `\mathrm{` backtracks to empty, but then
                  -- `[A-Z]` would have to match the backslash: no match
                  none
          | _ =>
              match matchElement r2 with
              | some (el, r4) =>
                  some (nuclidePart ++ "\\mathrm".data ++ ['{'] ++ el ++ ['}'],
                        r4)
              | none => none

/-- Source `LatexNormalizer._wrap_elements_in_mathrm`: `re.sub` of the normalized
nuclide pattern with `wrap_nuclide_element`. -/
def wrapElementsAux : ℕ → PyStr → PyStr
  | 0, s => s
  | _ + 1, [] => []
  | fuel + 1, c :: rest =>
      match matchNuclideNormalized (c :: rest) with
      | some (rep, r) => rep ++ wrapElementsAux fuel r
      | none => c :: wrapElementsAux fuel rest

/-- See `wrapElementsAux`. -/
def wrapElements (s : PyStr) : PyStr := wrapElementsAux s.length s

/-- Source `LatexNormalizer.normalize` with the default constructor arguments
(`normalize_nuclides=True`, `wrap_elements_mathrm=True`). -/
def latexNormalize (text : PyStr) : PyStr :=
  if text.isEmpty then text else wrapElements (normalizeNuclides text)

end LatexNormalizerDefs

section NoiseDetectorDefs

/-- Floor of a rational as an integer, computed by floor division of the
numerator by the (positive) denominator. -/
def ratFloor (q : ℚ) : ℤ := Int.fdiv q.num q.den

/-- Ceiling of a rational. -/
def ratCeil (q : ℚ) : ℤ := -(ratFloor (-q))

/-- Python `int()` applied to a nonnegative/negative rational: truncation
toward zero. -/
def pyIntTrunc (q : ℚ) : ℤ := if 0 ≤ q then ratFloor q else ratCeil q

/-- Source `min_occurrences = max(2, int(num_samples * self.min_frequency))` from
`NoiseDetector.detect_noise_zones`. -/
def minOccurrences (numSamples : ℕ) (minFrequency : ℚ) : ℤ :=
  max 2 (pyIntTrunc (numSamples * minFrequency))

/-- Stable insertion into a list sorted by `keep` (`keep y x` means `y` stays
in front of `x`). -/
def stableInsert (keep : α → α → Bool) (x : α) : List α → List α
  | [] => [x]
  | y :: ys => if keep y x then y :: stableInsert keep x ys else x :: y :: ys

/-- Stable sort (Python `sorted`): insert the elements in input order. -/
def stableSortBy (keep : α → α → Bool) (l : List α) : List α :=
  l.foldl (fun acc x => stableInsert keep x acc) []

/-- Source `NoiseDetector._filter_patterns`: keep the `(text, count)` pairs whose
count reaches the threshold, sorted by count descending (stable). -/
def filterPatterns (textCounts : List (PyStr × ℕ)) (minOcc : ℤ) :
    List (PyStr × ℕ) :=
  stableSortBy (fun y x => decide ((x.2 : ℤ) ≤ (y.2 : ℤ)))
    (textCounts.filter (fun p => decide (minOcc ≤ (p.2 : ℤ))))

end NoiseDetectorDefs

section CoordinateConverterDefs

/-- Source `pixel_bbox_to_pdf_bbox`: scale each pixel coordinate by
`page_dim / ((page_dim / 72) * dpi)`. -/
def pixelBboxToPdfBbox (pixelBbox : List ℚ) (pageWidthPdf pageHeightPdf : ℚ)
    (dpi : ℚ) : List ℚ :=
  match pixelBbox with
  | [x1px, y1px, x2px, y2px] =>
      let scaleX := pageWidthPdf / ((pageWidthPdf / 72) * dpi)
      let scaleY := pageHeightPdf / ((pageHeightPdf / 72) * dpi)
      [x1px * scaleX, y1px * scaleY, x2px * scaleX, y2px * scaleY]
  | other => other

/-- The `bbox` field of an extraction element: a pixel-space dict
`{x, y, width, height}` (absent keys default to 0 at construction), a
list/tuple, or anything else. -/
inductive ElemBBox where
  | dict (x y width height : ℚ)
  | tuple (bb : List ℚ)
  | other
  deriving DecidableEq, Repr

/-- An extraction element consumed by `extract_exclusion_zones_from_metadata`. -/
structure ExtractionElement where
  page : ℤ
  bbox : ElemBBox
  type : PyStr
  filename : PyStr
  source : PyStr
  deriving DecidableEq, Repr

/-- An output exclusion zone of `extract_exclusion_zones_from_metadata`. -/
structure MetaZone where
  bbox : List ℚ
  type : PyStr
  filename : PyStr
  source : PyStr
  deriving DecidableEq, Repr

/-- Python list indexing `pages[i]`: nonnegative indices from the front,
negative indices from the back, `none` (an `IndexError`) outside
`[-len, len)`. -/
def pyIndex (l : List α) (i : ℤ) : Option α :=
  if 0 ≤ i then l.get? i.toNat
  else if 0 ≤ (l.length : ℤ) + i then l.get? ((l.length : ℤ) + i).toNat
  else none

/-- Source `exclusion_zones[page_num].append(zone)` with the
`if page_num not in exclusion_zones` guard: an insertion-ordered dict from
page number to zone list. -/
def addZone (m : List (ℤ × List MetaZone)) (page : ℤ) (z : MetaZone) :
    List (ℤ × List MetaZone) :=
  match m with
  | [] => [(page, [z])]
  | (p, zs) :: rest =>
      if p = page then (p, zs ++ [z]) :: rest
      else (p, zs) :: addZone rest page z

/-- The element loop of `extract_exclusion_zones_from_metadata` over a
document modelled by its per-page `(width, height)` dimensions; an
out-of-bounds negative page index is an uncaught `IndexError`
(`Except.error`). -/
def extractZonesLoop (pages : List (ℚ × ℚ)) (dpi : ℚ) :
    List ExtractionElement → List (ℤ × List MetaZone) →
    Except Unit (List (ℤ × List MetaZone))
  | [], m => .ok m
  | e :: rest, m =>
      if (pages.length : ℤ) < e.page then extractZonesLoop pages dpi rest m
      else
        match pyIndex pages (e.page - 1) with
        | none => .error ()
        | some (w, h) =>
            match e.bbox with
            | .dict x y wd ht =>
                let pdfBbox := pixelBboxToPdfBbox [x, y, x + wd, y + ht] w h dpi
                extractZonesLoop pages dpi rest
                  (addZone m e.page ⟨pdfBbox, e.type, e.filename, e.source⟩)
            | .tuple bb =>
                if bb.length = 4 then
                  extractZonesLoop pages dpi rest
                    (addZone m e.page ⟨bb, e.type, e.filename, e.source⟩)
                else extractZonesLoop pages dpi rest m
            | .other => extractZonesLoop pages dpi rest m

/-- Source `extract_exclusion_zones_from_metadata`. -/
def extractExclusionZonesFromMetadata (pages : List (ℚ × ℚ))
    (elements : List ExtractionElement) (dpi : ℚ) :
    Except Unit (List (ℤ × List MetaZone)) :=
  extractZonesLoop pages dpi elements []

/-- Total number of zones in the result dict. -/
def totalZones (m : List (ℤ × List MetaZone)) : ℕ :=
  (m.map (fun p => p.2.length)).sum

end CoordinateConverterDefs

section ReconstructorDefs

/-- Python `round` to the nearest integer, halves to even (banker's
rounding), on the exact rational model of the float inputs. -/
def roundHalfEven (q : ℚ) : ℤ :=
  let f := ratFloor q
  let r := q - (f : ℚ)
  if r < 1/2 then f
  else if 1/2 < r then f + 1
  else if f % 2 = 0 then f else f + 1

/-- Python `round(x, 1)`. -/
def round1 (q : ℚ) : ℚ := (roundHalfEven (q * 10) : ℚ) / 10

/-- One `Counter` increment: bump an existing key (keeping insertion order)
or append a new one. -/
def tallyInsert : List (ℚ × ℕ) → ℚ → List (ℚ × ℕ)
  | [], x => [(x, 1)]
  | (k, n) :: rest, x =>
      if k = x then (k, n + 1) :: rest else (k, n) :: tallyInsert rest x

/-- Source `collections.Counter` of a list, in first-occurrence order. -/
def tally (l : List ℚ) : List (ℚ × ℕ) := l.foldl tallyInsert []

/-- Source `Counter(l).most_common(1)[0][0]`: the most frequent value, with ties
resolved in favour of the first-encountered one (`most_common` sorts stably
by count). -/
def mostCommonRat (l : List ℚ) : ℚ :=
  match tally l with
  | [] => 0
  | p :: rest => (rest.foldl (fun best q => if best.2 < q.2 then q else best) p).1

/-- A (possibly fused) arrow as produced by `extract_arrow_graphics`. -/
structure Arrow where
  x_start : ℚ
  x_end : ℚ
  y : ℚ
  direction : PyStr
  length : ℚ
  deriving DecidableEq, Repr

/-- The line-grouping state of `reconstruct_formulas` (`lines`,
`current_line`, `prev_char`). -/
structure GroupState where
  lines : List (List CharRec)
  current : List CharRec
  prev : Option CharRec

/-- One step of the line-grouping walk of `reconstruct_formulas` (the
dual-threshold decision logic). -/
def groupStep (szThresh baselineSize : ℚ) (st : GroupState) (c : CharRec) :
    GroupState :=
  match st.prev with
  | none => { lines := st.lines, current := [c], prev := some c }
  | some pc =>
      let gap := |c.top - pc.top|
      let isSmall := decide (c.size < szThresh)
      let isOffset := decide (gap < baselineSize * (4/5))
      if gap < 3 then
        { st with current := st.current ++ [c], prev := some c }
      else if isSmall && isOffset then
        { st with current := st.current ++ [c], prev := some c }
      else if 8 < gap ∧ szThresh ≤ c.size then
        { lines := st.lines ++ (if st.current.isEmpty then [] else [st.current]),
          current := [c], prev := some c }
      else if gap < baselineSize * (3/2) then
        { st with current := st.current ++ [c], prev := some c }
      else
        { lines := st.lines ++ (if st.current.isEmpty then [] else [st.current]),
          current := [c], prev := some c }

/-- The full line-grouping pass, including the final `current_line` flush. -/
def groupLines (szThresh baselineSize : ℚ) (sortedChars : List CharRec) :
    List (List CharRec) :=
  let st := sortedChars.foldl (groupStep szThresh baselineSize) ⟨[], [], none⟩
  st.lines ++ (if st.current.isEmpty then [] else [st.current])

/-- The LaTeX group state (`current_format`). -/
inductive Fmt where
  | normal
  | sub
  | sup
  deriving DecidableEq, Repr

/-- Source `result.append('}')` piece. -/
def closeBracePiece : PyStr := ['}']

/-- Source `result.append(' ')` piece. -/
def spacePiece : PyStr := [' ']

/-- The opening subscript piece. -/
def subOpenPiece : PyStr := ['_', '{']

/-- The opening superscript piece. -/
def supOpenPiece : PyStr := ['^', '{']

/-- Source `f' {direction} '`: the arrow token inserted in place of a space. -/
def arrowToken (direction : PyStr) : PyStr := ' ' :: (direction ++ [' '])

/-- The arrow lookup for a space character: the first arrow (in list order)
within 10pt vertically of the character's `top` and whose padded horizontal
span contains the character's `x0`. -/
def findArrowAux (top x0 : ℚ) : ℕ → List Arrow → Option (ℕ × Arrow)
  | _, [] => none
  | i, a :: rest =>
      if |top - a.y| < 10 ∧ (a.x_start - 5 ≤ x0 ∧ x0 ≤ a.x_end + 5) then
        some (i, a)
      else findArrowAux top x0 (i + 1) rest

/-- See `findArrowAux`. -/
def findArrow (arrows : List Arrow) (top x0 : ℚ) : Option (ℕ × Arrow) :=
  findArrowAux top x0 0 arrows

/-- Source `is_subscript` as computed in `reconstruct_formulas` (size below the
threshold and `top` more than 0.5 below the line baseline). -/
def isSubscript (szThresh lineBaselineTop : ℚ) (c : CharRec) : Bool :=
  decide (c.size < szThresh) && decide (lineBaselineTop + 1/2 < c.top)

/-- Source `is_superscript` as computed in `reconstruct_formulas`. -/
def isSuperscript (szThresh lineBaselineTop : ℚ) (c : CharRec) : Bool :=
  decide (c.size < szThresh) && decide (c.top < lineBaselineTop - 1/2)

/-- The word-spacing condition: a previous `x1` exists, the character is
neither sub- nor superscript, and the horizontal gap exceeds 25% of the
baseline size. -/
def wordSpaceFires (szThresh lineBaselineTop baselineSize : ℚ) (c : CharRec)
    (p : Option ℚ) : Bool :=
  match p with
  | some px =>
      !isSubscript szThresh lineBaselineTop c &&
      !isSuperscript szThresh lineBaselineTop c &&
      decide (baselineSize * (1/4) < c.x0 - px)
  | none => false

/-- The pieces appended by the word-spacing branch (closing an open group
first). -/
def gapPieces (fire : Bool) (f : Fmt) : List PyStr :=
  if fire then
    if f ≠ Fmt.normal then [closeBracePiece, spacePiece] else [spacePiece]
  else []

/-- Source `current_format` after the word-spacing branch. -/
def fmtAfterGap (fire : Bool) (f : Fmt) : Fmt :=
  if fire then Fmt.normal else f

/-- The formatting fall-through of the per-character loop: open/close the
sub/superscript group as dictated by the character's classification, then
append the character text.  Returns the appended pieces and the new
`current_format`. -/
def fmtPieces (szThresh lineBaselineTop : ℚ) (c : CharRec) (f1 : Fmt) :
    List PyStr × Fmt :=
  if isSubscript szThresh lineBaselineTop c then
    if f1 ≠ Fmt.sub then
      ((if f1 = Fmt.sup then [closeBracePiece] else []) ++
        [subOpenPiece, c.text], Fmt.sub)
    else ([c.text], Fmt.sub)
  else if isSuperscript szThresh lineBaselineTop c then
    if f1 ≠ Fmt.sup then
      ((if f1 = Fmt.sub then [closeBracePiece] else []) ++
        [supOpenPiece, c.text], Fmt.sup)
    else ([c.text], Fmt.sup)
  else
    if f1 ≠ Fmt.normal then ([closeBracePiece, c.text], Fmt.normal)
    else ([c.text], Fmt.normal)

/-- Is the lookahead character a sub- or superscript (the space-swallowing
test of the space-character branch)? -/
def nextIsSubOrSuper (szThresh lineBaselineTop : ℚ) (nc : CharRec) : Bool :=
  decide (nc.size < szThresh) &&
    (decide (lineBaselineTop + 1/2 < nc.top) ||
     decide (nc.top < lineBaselineTop - 1/2))

/-- One iteration of the per-character loop of `reconstruct_formulas`:
given the character, the lookahead character, and the mutable state
(`prev_x1`, `current_format`, `inserted_arrows`), produce the appended
`result` pieces and the updated state. -/
def charStep (arrows : List Arrow) (szThresh lineBaselineTop baselineSize : ℚ)
    (c : CharRec) (next : Option CharRec) (p : Option ℚ) (f : Fmt)
    (ins : List ℕ) : List PyStr × Option ℚ × Fmt × List ℕ :=
  let fire := wordSpaceFires szThresh lineBaselineTop baselineSize c p
  let gp := gapPieces fire f
  let f1 := fmtAfterGap fire f
  -- the formatting fall-through shared by non-space characters and spaces
  -- that are neither arrows nor swallowed before a sub/superscript
  let emit : List PyStr × Option ℚ × Fmt × List ℕ :=
    let pf := fmtPieces szThresh lineBaselineTop c f1
    (gp ++ pf.1, some c.x1, pf.2, ins)
  if (pyStrip c.text).isEmpty then
    match findArrow arrows c.top c.x0 with
    | some (idx, a) =>
        if ins.contains idx then (gp, some c.x1, f1, ins)
        else
          (gp ++ (if f1 ≠ Fmt.normal then [closeBracePiece] else []) ++
            [arrowToken a.direction], some c.x1, Fmt.normal, idx :: ins)
    | none =>
        match next with
        | some nc =>
            if nextIsSubOrSuper szThresh lineBaselineTop nc then
              -- space swallowed before a sub/superscript: bare `continue`,
              -- `prev_x1` is not updated
              (gp, p, f1, ins)
            else emit
        | none => emit
  else emit

/-- The per-character loop over one line (`prev_x1 = None`,
`current_format = 'normal'`, `inserted_arrows = set()` at entry), with the
closing of a still-open group at line end. -/
def runLine (arrows : List Arrow) (szThresh lineBaselineTop baselineSize : ℚ) :
    List CharRec → Option ℚ → Fmt → List ℕ → List PyStr
  | [], _, f, _ => if f ≠ Fmt.normal then [closeBracePiece] else []
  | c :: rest, p, f, ins =>
      let r := charStep arrows szThresh lineBaselineTop baselineSize c
        rest.head? p f ins
      r.1 ++ runLine arrows szThresh lineBaselineTop baselineSize rest
        r.2.1 r.2.2.1 r.2.2.2

/-- The per-line loop of `reconstruct_formulas`: sort the line by `x0`,
compute the line baseline (most frequent rounded `top` among normal-sized
characters, falling back to the page baseline), run the character loop, and
append a newline piece between lines. -/
def processFormulaLines (arrows : List Arrow)
    (szThresh baselineSize pageBaselineTop : ℚ) :
    ℕ → ℕ → List (List CharRec) → List PyStr
  | _, _, [] => []
  | idx, total, line :: rest =>
      let lineChars := stableSortBy (fun y x => decide (y.x0 ≤ x.x0)) line
      if lineChars.isEmpty then
        processFormulaLines arrows szThresh baselineSize pageBaselineTop
          (idx + 1) total rest
      else
        let normals := lineChars.filter fun c => decide (szThresh ≤ c.size)
        let lineBaselineTop :=
          if normals.isEmpty then pageBaselineTop
          else mostCommonRat (normals.map fun c => round1 c.top)
        runLine arrows szThresh lineBaselineTop baselineSize lineChars none
            Fmt.normal [] ++
          (if idx < total - 1 then [['\n']] else []) ++
          processFormulaLines arrows szThresh baselineSize pageBaselineTop
            (idx + 1) total rest

/-- Source `reconstruct_formulas`: empty input yields the empty string; otherwise
sort by `(top, x0)`, group into lines, process each line, and join the
accumulated `result` pieces. -/
def reconstructFormulas (chars : List CharRec)
    (baselineSize baselineTop : ℚ) (arrows : List Arrow) : PyStr :=
  if chars.isEmpty then []
  else
    let szThresh := baselineSize * (4/5)
    let sortedChars := stableSortBy
      (fun y x => decide (y.top < x.top ∨ (y.top = x.top ∧ y.x0 ≤ x.x0))) chars
    let lines := groupLines szThresh baselineSize sortedChars
    (processFormulaLines arrows szThresh baselineSize baselineTop 0
      lines.length lines).flatten

/-- Number of occurrences of a pattern as a substring (counting one per
start position). -/
def countInfix (pat : PyStr) : PyStr → ℕ
  | [] => if pat.isEmpty then 1 else 0
  | c :: rest =>
      (if pat.isPrefixOf (c :: rest) then 1 else 0) + countInfix pat rest

end ReconstructorDefs

/-- A bbox value the element loop accepts: a pixel dict or a 4-tuple. -/
def bboxWellFormedTag : ElemBBox → Bool
  | .dict _ _ _ _ => true
  | .tuple bb => decide (bb.length = 4)
  | .other => false

/-- A line as it can occur in `filter_text` output: empty, or a non-blank
kept line that is a fixed point of stripping and cleaning, is not flagged,
and whose only whitespace characters are plain spaces. -/
def GoodLine (cfg : RegexFilterConfig) (m : PyStr) : Prop :=
  m = [] ∨ (m ≠ [] ∧ pyStrip m = m ∧
    (∀ c ∈ m, isPySpace c = true → c = ' ') ∧
    shouldFilterLine cfg m = false ∧ cleanLine cfg m = m)

/-- Drop the trailing empty lines of a line list. -/
def dropTrailingEmpties (ls : List PyStr) : List PyStr :=
  (ls.reverse.dropWhile List.isEmpty).reverse

/-! ### Supporting lemmas -/

theorem noiseLoop_eq_filter (nz : NoiseZones) (chars : List CharRec) :
    noiseLoop nz chars = chars.filter (fun c => !isInNoiseZone nz c) := by
  induction chars with
  | nil => rfl
  | cons c rest ih =>
      simp only [noiseLoop, List.filter_cons]
      cases h : isInNoiseZone nz c <;> simp [h, ih]

theorem filterCharacters_eq_filter (nz : NoiseZones) (chars : List CharRec) :
    filterCharacters nz chars = chars.filter (fun c => !isInNoiseZone nz c) := by
  unfold filterCharacters
  cases chars with
  | nil => rfl
  | cons c rest => simp [noiseLoop_eq_filter]

theorem exclusionLoop_eq_filter (cap vis : ℚ) (zones : List Zone)
    (chars : List CharRec) :
    exclusionLoop cap vis zones chars =
      chars.filter (fun c => !charExcluded cap vis zones c) := by
  induction chars with
  | nil => rfl
  | cons c rest ih =>
      simp only [exclusionLoop, List.filter_cons]
      cases h : charExcluded cap vis zones c <;> simp [h, ih]

theorem filterCharsByExclusionZones_eq_filter (cap vis : ℚ)
    (chars : List CharRec) (zones : List Zone) :
    filterCharsByExclusionZones cap vis chars zones =
      chars.filter (fun c => !charExcluded cap vis zones c) := by
  unfold filterCharsByExclusionZones
  cases zones with
  | nil => simp [charExcluded]
  | cons z rest => simp [exclusionLoop_eq_filter]

theorem mem_stableInsert (keep : α → α → Bool) (x a : α) (l : List α) :
    a ∈ stableInsert keep x l ↔ a = x ∨ a ∈ l := by
  induction l with
  | nil => simp [stableInsert]
  | cons y ys ih =>
      simp only [stableInsert]
      split
      · simp only [List.mem_cons, ih]
        tauto
      · exact List.mem_cons

theorem mem_stableSortBy (keep : α → α → Bool) (a : α) (l : List α) :
    a ∈ stableSortBy keep l ↔ a ∈ l := by
  suffices h : ∀ init : List α,
      a ∈ l.foldl (fun acc x => stableInsert keep x acc) init ↔
        a ∈ init ∨ a ∈ l by
    simpa [stableSortBy] using h []
  induction l with
  | nil => simp
  | cons y ys ih =>
      intro init
      simp only [List.foldl_cons, ih, mem_stableInsert, List.mem_cons]
      tauto

/-! ### Claims -/

/-- C1: for the synthetic one-line character set "H" (normal, size 10,
top 100), "2" (size 7, top 103), "O" (normal, size 10, top 100), placed left
to right with horizontal adjacency, with page baseline size 10, baseline top
100 and no arrows, `reconstruct_formulas` returns exactly `H_{2}O`: the "2"
is classified subscript and wrapped in a single subscript group. -/
theorem C1_subscript_roundtrip :
    reconstructFormulas
      [⟨['H'], 10, 17, 100, 110, 10⟩,
       ⟨['2'], 17, 21, 103, 110, 7⟩,
       ⟨['O'], 21, 28, 100, 110, 10⟩] 10 100 [] =
      ['H', '_', '{', '2', '}', 'O'] := by
  decide

/-- C5: `LatexNormalizer.normalize` maps `^{3}_{1}^{5}_{7}Cl` to exactly
`^{35}_{17}\mathrm{Cl}`, concatenating the digit runs as strings ("3"+"5" =
"35", "1"+"7" = "17") and wrapping the element symbol in `\mathrm{}`; a
second application returns the result unchanged. -/
theorem C5_nuclide_merge :
    latexNormalize "^{3}_{1}^{5}_{7}Cl".data = "^{35}_{17}\\mathrm{Cl}".data ∧
    latexNormalize "^{35}_{17}\\mathrm{Cl}".data =
      "^{35}_{17}\\mathrm{Cl}".data := by
  exact ⟨rfl, rfl⟩

/-- C7 counterexample: two rectangles that merely touch along an edge
(the first box's `x1` equals the second box's `x0`, so the intersection has
zero width) are reported as overlapping by `_bbox_overlap`, so the claim
that the test is strict (touching edges count as no overlap) is false. -/
theorem C7_counterexample :
    (⟨0, 0, 1, 1⟩ : BBox).x1 = (⟨1, 0, 2, 1⟩ : BBox).x0 ∧
    bboxOverlap ⟨0, 0, 1, 1⟩ ⟨1, 0, 2, 1⟩ = true := by
  exact ⟨rfl, rfl⟩

/-- Source `_bbox_overlap` unfolded to its two disjunction tests. -/
theorem bboxOverlap_eq_true_iff (a b : BBox) :
    bboxOverlap a b = true ↔
      ¬(a.x1 < b.x0 ∨ b.x1 < a.x0) ∧ ¬(a.y1 < b.y0 ∨ b.y1 < a.y0) := by
  unfold bboxOverlap
  split_ifs with h1 h2 <;> simp_all

/-- C7 amended: `_bbox_overlap` is the closed-rectangle intersection
test: for well-formed boxes it reports an overlap exactly when the two
closed rectangles share a point, so rectangles touching along an edge count
as overlapping. -/
theorem C7_amended (a b : BBox) (ha1 : a.x0 ≤ a.x1) (ha2 : a.y0 ≤ a.y1)
    (hb1 : b.x0 ≤ b.x1) (hb2 : b.y0 ≤ b.y1) :
    bboxOverlap a b = true ↔ ∃ p : ℚ × ℚ, memBBox p a ∧ memBBox p b := by
  rw [bboxOverlap_eq_true_iff]
  constructor
  · rintro ⟨hx, hy⟩
    push_neg at hx hy
    exact ⟨(max a.x0 b.x0, max a.y0 b.y0),
      ⟨le_max_left _ _, max_le ha1 hx.1, le_max_left _ _, max_le ha2 hy.1⟩,
      ⟨le_max_right _ _, max_le hx.2 hb1, le_max_right _ _, max_le hy.2 hb2⟩⟩
  · rintro ⟨p, ⟨hax0, hax1, hay0, hay1⟩, ⟨hbx0, hbx1, hby0, hby1⟩⟩
    constructor <;> push_neg <;> constructor <;> linarith

/-- C7 amended witness: two edge-touching rectangles share the touching
edge point, and the overlap test reports `true` on them. -/
theorem C7_amended_witness :
    bboxOverlap ⟨0, 0, 1, 1⟩ ⟨1, 0, 2, 1⟩ = true ↔
      ∃ p : ℚ × ℚ, memBBox p (⟨0, 0, 1, 1⟩ : BBox) ∧
        memBBox p (⟨1, 0, 2, 1⟩ : BBox) := by
  exact C7_amended ⟨0, 0, 1, 1⟩ ⟨1, 0, 2, 1⟩ (by norm_num) (by norm_num)
    (by norm_num) (by norm_num)

/-- C10: both character filters are order- and content-preserving
selections: `NoiseFilter.filter_characters` and
`TextExtractor._filter_chars_by_exclusion_zones` each equal a `List.filter`
of a per-character predicate (so whether a character is kept depends only on
that character and the fixed zone configuration), and each result is a
sublist (subsequence) of the input list. -/
theorem C10_filters_are_selections (nz : NoiseZones) (chars : List CharRec)
    (cap vis : ℚ) (zones : List Zone) (chars2 : List CharRec) :
    filterCharacters nz chars = chars.filter (fun c => !isInNoiseZone nz c) ∧
    (filterCharacters nz chars).Sublist chars ∧
    filterCharsByExclusionZones cap vis chars2 zones =
      chars2.filter (fun c => !charExcluded cap vis zones c) ∧
    (filterCharsByExclusionZones cap vis chars2 zones).Sublist chars2 := by
  refine ⟨filterCharacters_eq_filter nz chars, ?_,
    filterCharsByExclusionZones_eq_filter cap vis chars2 zones, ?_⟩
  · rw [filterCharacters_eq_filter]
    exact List.filter_sublist _
  · rw [filterCharsByExclusionZones_eq_filter]
    exact List.filter_sublist _

/-- C6 counterexample: with a 5-page sample and `min_frequency = 0.5`,
a pattern occurring exactly 2 times IS promoted by `_filter_patterns`
(because `int(5 * 0.5) = 2` truncates), although `2 < max(2, 5*0.5) = 2.5`,
contradicting the claimed real-valued threshold. -/
theorem C6_counterexample :
    filterPatterns [("Header".data, 2)] (minOccurrences 5 (1/2)) =
      [("Header".data, 2)] ∧
    ¬ (max 2 ((5 : ℚ) * (1/2)) ≤ (2 : ℚ)) := by
  refine ⟨by decide, by norm_num⟩

/-- C6 amended: a counted text is promoted to a noise pattern exactly
when its occurrence count is at least `max(2, int(sample_size *
min_frequency))`, where `int` truncates toward zero — so for a 5-page sample
with `min_frequency = 0.5` the threshold is 2 and counts of both 2 and 3 are
promoted. -/
theorem C6_amended (textCounts : List (PyStr × ℕ)) (numSamples : ℕ)
    (minFreq : ℚ) (p : PyStr × ℕ) :
    p ∈ filterPatterns textCounts (minOccurrences numSamples minFreq) ↔
      p ∈ textCounts ∧
        max 2 (pyIntTrunc (numSamples * minFreq)) ≤ (p.2 : ℤ) := by
  unfold filterPatterns minOccurrences
  rw [mem_stableSortBy, List.mem_filter]
  simp

/-- C8 counterexample: the line `NIGRAM SIHT apple banana cherry` has 5
whitespace-separated tokens of which only 2 are mirrored tokens — fewer than
half — yet `_looks_like_mirrored_warning` flags it (the code's threshold is
`max(2, len(tokens) // 2) = 2` by floor division) and `should_filter_line`
removes it, contradicting the claim. -/
theorem C8_counterexample :
    shouldFilterLine defaultRegexConfig
      "NIGRAM SIHT apple banana cherry".data = true ∧
    mirroredCount (wsTokens (pyStrip "NIGRAM SIHT apple banana cherry".data))
      = 2 ∧
    (wsTokens (pyStrip "NIGRAM SIHT apple banana cherry".data)).length = 5 ∧
    2 * 2 < 5 := by
  refine ⟨by decide, by decide, by decide, by decide⟩

/-- C4: in `_filter_chars_by_exclusion_zones`, a character whose bbox is
disjoint from every zone's padding-adjusted bbox is always retained; a
character (with a well-formed bbox) lying strictly inside the bbox of a zone
with no positive padding shrink is always dropped; and with an empty zone
list every character is retained. -/
theorem C4_exclusion_symmetry (cap vis : ℚ) (zones : List Zone)
    (chars : List CharRec) (c : CharRec) :
    (zones = [] → filterCharsByExclusionZones cap vis chars zones = chars) ∧
    (c ∈ chars →
      (∀ z ∈ zones,
        c.x1 < (adjustedBBox cap vis z).x0 ∨
        (adjustedBBox cap vis z).x1 < c.x0 ∨
        c.bottom < (adjustedBBox cap vis z).y0 ∨
        (adjustedBBox cap vis z).y1 < c.top) →
      c ∈ filterCharsByExclusionZones cap vis chars zones) ∧
    (∀ z ∈ zones, ¬ 0 < paddingShrink cap vis z →
      z.bbox.x0 < c.x0 → c.x1 < z.bbox.x1 →
      z.bbox.y0 < c.top → c.bottom < z.bbox.y1 →
      c.x0 ≤ c.x1 → c.top ≤ c.bottom →
      c ∉ filterCharsByExclusionZones cap vis chars zones) := by
  refine ⟨?_, ?_, ?_⟩
  · rintro rfl
    simp [filterCharsByExclusionZones]
  · intro hc hdisj
    rw [filterCharsByExclusionZones_eq_filter, List.mem_filter]
    refine ⟨hc, ?_⟩
    simp only [Bool.not_eq_eq_eq_not, Bool.not_true, charExcluded,
      List.any_eq_false]
    intro z hz hov
    rw [bboxOverlap_eq_true_iff] at hov
    obtain ⟨hx, hy⟩ := hov
    rcases hdisj z hz with h | h | h | h
    · exact hx (Or.inl h)
    · exact hx (Or.inr h)
    · exact hy (Or.inl h)
    · exact hy (Or.inr h)
  · intro z hz hpad hx0 hx1 hy0 hy1 hwx hwy hmem
    rw [filterCharsByExclusionZones_eq_filter, List.mem_filter] at hmem
    have hkeep := hmem.2
    rw [Bool.not_eq_eq_eq_not, Bool.not_true] at hkeep
    have hadj : adjustedBBox cap vis z = z.bbox := by
      unfold adjustedBBox
      rw [if_neg hpad]
    have hov : bboxOverlap (charBBox c) (adjustedBBox cap vis z) = true := by
      rw [hadj, bboxOverlap_eq_true_iff]
      simp only [charBBox, not_or]
      constructor
      · constructor <;> [linarith; linarith]
      · constructor <;> [linarith; linarith]
    have : charExcluded cap vis zones c = true :=
      List.any_eq_true.mpr ⟨z, hz, hov⟩
    rw [this] at hkeep
    cases hkeep

/-- C4 witness: with one zero-padding table zone, a character disjoint
from it is retained, a character strictly inside it is dropped, and with no
zones everything is retained. -/
theorem C4_exclusion_symmetry_witness :
    (⟨['a'], 0, 10, 0, 10, 12⟩ : CharRec) ∈
      filterCharsByExclusionZones 0 20
        [⟨['a'], 0, 10, 0, 10, 12⟩, ⟨['b'], 120, 130, 120, 130, 12⟩]
        [⟨⟨100, 100, 200, 200⟩, "table".data, []⟩] ∧
    (⟨['b'], 120, 130, 120, 130, 12⟩ : CharRec) ∉
      filterCharsByExclusionZones 0 20
        [⟨['a'], 0, 10, 0, 10, 12⟩, ⟨['b'], 120, 130, 120, 130, 12⟩]
        [⟨⟨100, 100, 200, 200⟩, "table".data, []⟩] ∧
    filterCharsByExclusionZones 0 20
        [⟨['a'], 0, 10, 0, 10, 12⟩, ⟨['b'], 120, 130, 120, 130, 12⟩] [] =
      [⟨['a'], 0, 10, 0, 10, 12⟩, ⟨['b'], 120, 130, 120, 130, 12⟩] := by
  refine ⟨?_, ?_, ?_⟩
  · exact (C4_exclusion_symmetry 0 20
      [⟨⟨100, 100, 200, 200⟩, "table".data, []⟩]
      [⟨['a'], 0, 10, 0, 10, 12⟩, ⟨['b'], 120, 130, 120, 130, 12⟩]
      ⟨['a'], 0, 10, 0, 10, 12⟩).2.1 (by decide) (by decide)
  · exact (C4_exclusion_symmetry 0 20
      [⟨⟨100, 100, 200, 200⟩, "table".data, []⟩]
      [⟨['a'], 0, 10, 0, 10, 12⟩, ⟨['b'], 120, 130, 120, 130, 12⟩]
      ⟨['b'], 120, 130, 120, 130, 12⟩).2.2
      ⟨⟨100, 100, 200, 200⟩, "table".data, []⟩ (by decide) (by decide)
      (by norm_num) (by norm_num) (by norm_num) (by norm_num)
      (by norm_num) (by norm_num)
  · exact (C4_exclusion_symmetry 0 20 []
      [⟨['a'], 0, 10, 0, 10, 12⟩, ⟨['b'], 120, 130, 120, 130, 12⟩]
      ⟨['a'], 0, 10, 0, 10, 12⟩).1 rfl

theorem totalZones_addZone (m : List (ℤ × List MetaZone)) (pg : ℤ)
    (z : MetaZone) : totalZones (addZone m pg z) = totalZones m + 1 := by
  induction m with
  | nil => simp [addZone, totalZones]
  | cons p rest ih =>
      by_cases h : p.1 = pg
      · simp only [addZone, if_pos h, totalZones, List.map_cons, List.sum_cons,
          List.length_append, List.length_cons, List.length_nil]
        omega
      · simp only [addZone, totalZones, List.map_cons, List.sum_cons] at *
        rw [if_neg h]
        simp only [totalZones, List.map_cons, List.sum_cons]
        omega

theorem pyIndex_of_inRange (pages : List (ℚ × ℚ)) (pg : ℤ) (h1 : 1 ≤ pg)
    (h2 : pg ≤ (pages.length : ℤ)) :
    ∃ wh, pyIndex pages (pg - 1) = some wh := by
  unfold pyIndex
  rw [if_pos (by omega)]
  have hlt : (pg - 1).toNat < pages.length := by omega
  exact ⟨pages.get ⟨(pg - 1).toNat, hlt⟩, List.get?_eq_get hlt⟩

theorem extractZonesLoop_ok (pages : List (ℚ × ℚ)) (dpi : ℚ) :
    ∀ (elements : List ExtractionElement) (m : List (ℤ × List MetaZone)),
      (∀ e ∈ elements, 1 ≤ e.page) →
      ∃ m', extractZonesLoop pages dpi elements m = .ok m' ∧
        totalZones m' = totalZones m +
          (elements.filter fun e =>
            decide (e.page ≤ (pages.length : ℤ)) &&
              bboxWellFormedTag e.bbox).length := by
  intro elements
  induction elements with
  | nil => exact fun m _ => ⟨m, rfl, by simp⟩
  | cons e rest ih =>
      intro m h
      have he : 1 ≤ e.page := h e (List.mem_cons_self e rest)
      have hrest : ∀ x ∈ rest, 1 ≤ x.page :=
        fun x hx => h x (List.mem_cons_of_mem e hx)
      by_cases hle : (pages.length : ℤ) < e.page
      · obtain ⟨m', hok, hcount⟩ := ih m hrest
        refine ⟨m', ?_, ?_⟩
        · simp only [extractZonesLoop, if_pos hle]
          exact hok
        · rw [hcount, List.filter_cons]
          have : (e.page ≤ (pages.length : ℤ)) = False := by
            simp only [eq_iff_iff, iff_false, not_le]
            exact hle
          simp [this]
      · have hin : e.page ≤ (pages.length : ℤ) := not_lt.mp hle
        obtain ⟨⟨w0, h0⟩, hwh⟩ := pyIndex_of_inRange pages e.page he hin
        have hfc : List.filter (fun e =>
            decide (e.page ≤ (pages.length : ℤ)) && bboxWellFormedTag e.bbox)
            (e :: rest) =
            (if (decide (e.page ≤ (pages.length : ℤ)) &&
                bboxWellFormedTag e.bbox) = true then
              e :: List.filter (fun e =>
                decide (e.page ≤ (pages.length : ℤ)) &&
                  bboxWellFormedTag e.bbox) rest
            else List.filter (fun e =>
              decide (e.page ≤ (pages.length : ℤ)) &&
                bboxWellFormedTag e.bbox) rest) := List.filter_cons
        rcases hbb : e.bbox with ⟨x, y, wd, ht⟩ | bb | _
        · obtain ⟨m', hok, hcount⟩ := ih
            (addZone m e.page ⟨pixelBboxToPdfBbox [x, y, x + wd, y + ht] w0 h0
              dpi, e.type, e.filename, e.source⟩) hrest
          refine ⟨m', ?_, ?_⟩
          · simp only [extractZonesLoop, if_neg hle, hwh, hbb]
            exact hok
          · rw [hcount, totalZones_addZone, hfc]
            have : (decide (e.page ≤ (pages.length : ℤ)) &&
                bboxWellFormedTag e.bbox) = true := by
              rw [hbb]
              simp [bboxWellFormedTag, hin]
            rw [if_pos this, List.length_cons]
            omega
        · by_cases h4 : bb.length = 4
          · obtain ⟨m', hok, hcount⟩ := ih
              (addZone m e.page ⟨bb, e.type, e.filename, e.source⟩) hrest
            refine ⟨m', ?_, ?_⟩
            · simp only [extractZonesLoop, if_neg hle, hwh, hbb, if_pos h4]
              exact hok
            · rw [hcount, totalZones_addZone, hfc]
              have : (decide (e.page ≤ (pages.length : ℤ)) &&
                  bboxWellFormedTag e.bbox) = true := by
                rw [hbb]
                simp [bboxWellFormedTag, hin, h4]
              rw [if_pos this, List.length_cons]
              omega
          · obtain ⟨m', hok, hcount⟩ := ih m hrest
            refine ⟨m', ?_, ?_⟩
            · simp only [extractZonesLoop, if_neg hle, hwh, hbb, if_neg h4]
              exact hok
            · rw [hcount, hfc]
              have : (decide (e.page ≤ (pages.length : ℤ)) &&
                  bboxWellFormedTag e.bbox) = false := by
                rw [hbb]
                simp [bboxWellFormedTag, h4]
              rw [this]
              simp
        · obtain ⟨m', hok, hcount⟩ := ih m hrest
          refine ⟨m', ?_, ?_⟩
          · simp only [extractZonesLoop, if_neg hle, hwh, hbb]
            exact hok
          · rw [hcount, hfc]
            have : (decide (e.page ≤ (pages.length : ℤ)) &&
                bboxWellFormedTag e.bbox) = false := by
              rw [hbb]
              simp [bboxWellFormedTag]
            rw [this]
            simp

/-- C9 counterexample: an element referencing page 0 of a one-page
document is out of range under the 1-indexed convention, yet it is not
skipped: Python's negative indexing resolves `pages[-1]` to the last page
and the element produces a zone (keyed under page 0), contradicting the
claim that every out-of-range element contributes no zone. -/
theorem C9_counterexample :
    extractExclusionZonesFromMetadata [(612, 792)]
      [⟨0, .tuple [1, 2, 3, 4], "figure".data, [], []⟩] 300 =
      .ok [(0, [⟨[1, 2, 3, 4], "figure".data, [], []⟩])] ∧
    ¬ (1 ≤ (0 : ℤ)) := by
  exact ⟨rfl, by decide⟩

/-- C9 amended: elements whose page exceeds the page count are
silently skipped (no zone, no exception), and every element with a page in
range and a well-formed bbox produces exactly one zone — provided all page
references are at least 1.  (For pages below 1 the code does not skip:
values down to `1 - page_count` wrap via Python negative indexing and
produce a zone, and smaller values raise `IndexError`.) -/
theorem C9_amended (pages : List (ℚ × ℚ)) (elements : List ExtractionElement)
    (dpi : ℚ) (h : ∀ e ∈ elements, 1 ≤ e.page) :
    ∃ m, extractExclusionZonesFromMetadata pages elements dpi = .ok m ∧
      totalZones m = (elements.filter fun e =>
        decide (e.page ≤ (pages.length : ℤ)) &&
          bboxWellFormedTag e.bbox).length := by
  have := extractZonesLoop_ok pages dpi elements [] h
  simpa [extractExclusionZonesFromMetadata, totalZones] using this

/-- C9 amended witness: a two-element list with one in-range
well-formed element (page 1) and one element referencing page 5 of a
one-page document yields exactly one zone and no error. -/
theorem C9_amended_witness :
    (∀ e ∈ [(⟨1, .dict 0 0 50 60, "figure".data, [], []⟩ : ExtractionElement),
        ⟨5, .tuple [1, 2, 3, 4], "table".data, [], []⟩], 1 ≤ e.page) ∧
    ∃ m, extractExclusionZonesFromMetadata [(612, 792)]
        [⟨1, .dict 0 0 50 60, "figure".data, [], []⟩,
         ⟨5, .tuple [1, 2, 3, 4], "table".data, [], []⟩] 300 = .ok m ∧
      totalZones m = ([(⟨1, .dict 0 0 50 60, "figure".data, [], []⟩ :
          ExtractionElement),
        ⟨5, .tuple [1, 2, 3, 4], "table".data, [], []⟩].filter fun e =>
        decide (e.page ≤ ((1 : ℕ) : ℤ)) && bboxWellFormedTag e.bbox).length :=
  ⟨by decide, C9_amended [(612, 792)]
    [⟨1, .dict 0 0 50 60, "figure".data, [], []⟩,
     ⟨5, .tuple [1, 2, 3, 4], "table".data, [], []⟩] 300 (by decide)⟩

theorem arrowToken_injective {d1 d2 : PyStr} (h : arrowToken d1 = arrowToken d2) :
    d1 = d2 := by
  simp only [arrowToken, List.cons.injEq, true_and] at h
  have := congrArg List.dropLast h
  simpa using this

theorem count_eq_zero_of_short {T : PyStr} (hT : 4 ≤ T.length)
    {l : List PyStr} (h : ∀ s ∈ l, s.length ≤ 2) : l.count T = 0 := by
  rw [List.count_eq_zero]
  intro hm
  have := h T hm
  omega

theorem findArrowAux_get? (top x0 : ℚ) :
    ∀ (l : List Arrow) (n j : ℕ) (a : Arrow),
      findArrowAux top x0 n l = some (j, a) → n ≤ j ∧ l.get? (j - n) = some a := by
  intro l
  induction l with
  | nil => intro n j a h; cases h
  | cons b rest ih =>
      intro n j a h
      unfold findArrowAux at h
      split_ifs at h with hcond
      · obtain ⟨rfl, rfl⟩ : n = j ∧ b = a := by
          cases h
          exact ⟨rfl, rfl⟩
        exact ⟨le_refl _, by simp⟩
      · obtain ⟨h1, h2⟩ := ih (n + 1) j a h
        refine ⟨by omega, ?_⟩
        have hs : j - n = (j - (n + 1)) + 1 := by omega
        rw [hs]
        simpa using h2

theorem findArrow_get? {arrows : List Arrow} {top x0 : ℚ} {j : ℕ} {a : Arrow}
    (h : findArrow arrows top x0 = some (j, a)) : arrows.get? j = some a := by
  have := findArrowAux_get? top x0 arrows 0 j a h
  simpa using this.2

theorem direction_ne_of_ne_idx {arrows : List Arrow}
    (hnodup : (arrows.map Arrow.direction).Nodup) {j : ℕ} {a : Arrow}
    (hj : arrows.get? j = some a) {i : ℕ} (hi : i < arrows.length)
    (hne : j ≠ i) : a.direction ≠ (arrows.get ⟨i, hi⟩).direction := by
  intro heq
  rw [List.get?_eq_some] at hj
  obtain ⟨hjlt, hja⟩ := hj
  apply hne
  have h1 : (arrows.map Arrow.direction).get ⟨j, by simpa using hjlt⟩ =
      (arrows.map Arrow.direction).get ⟨i, by simpa using hi⟩ := by
    simp only [List.get_map]
    rw [hja, heq]
  have h2 := (List.Nodup.get_inj_iff hnodup).mp h1
  exact congrArg Fin.val h2

theorem mem_gapPieces_length {fire : Bool} {f : Fmt} {s : PyStr}
    (hs : s ∈ gapPieces fire f) : s.length ≤ 2 := by
  unfold gapPieces at hs
  split_ifs at hs <;>
    simp only [List.mem_cons, List.mem_singleton, List.not_mem_nil] at hs <;>
    rcases hs with rfl | hs <;>
    simp_all [closeBracePiece, spacePiece]

theorem mem_fmtPieces_length {szT lb : ℚ} {c : CharRec} {f1 : Fmt} {s : PyStr}
    (hs : s ∈ (fmtPieces szT lb c f1).1) : s.length ≤ 2 ∨ s = c.text := by
  unfold fmtPieces at hs
  split_ifs at hs <;>
    simp only [List.mem_append, List.mem_cons, List.mem_singleton,
      List.not_mem_nil] at hs <;>
    rcases hs with (rfl | rfl | rfl) | rfl | rfl | hs <;>
    simp_all [closeBracePiece, subOpenPiece, supOpenPiece]

/-- Case analysis of one `charStep`: either the inserted set is unchanged
and no arrow token of the given (long) shape is appended, or the step emits
exactly one arrow token, for an arrow index that was not yet inserted and is
added to the set. -/
theorem charStep_count (arrows : List Arrow) (szT lb bs : ℚ) (c : CharRec)
    (next : Option CharRec) (p : Option ℚ) (f : Fmt) (ins : List ℕ)
    (T : PyStr) (hT : 4 ≤ T.length) (hc : c.text.length ≤ 1) :
    ((charStep arrows szT lb bs c next p f ins).2.2.2 = ins ∧
      (charStep arrows szT lb bs c next p f ins).1.count T = 0) ∨
    (∃ idx a, findArrow arrows c.top c.x0 = some (idx, a) ∧ idx ∉ ins ∧
      (charStep arrows szT lb bs c next p f ins).2.2.2 = idx :: ins ∧
      (charStep arrows szT lb bs c next p f ins).1.count T =
        (if T = arrowToken a.direction then 1 else 0)) := by
  have hgp : ∀ fire g, (gapPieces fire g).count T = 0 := fun fire g =>
    count_eq_zero_of_short hT (fun s hs => mem_gapPieces_length hs)
  have hemit : ∀ f1, ((gapPieces (wordSpaceFires szT lb bs c p) f ++
      (fmtPieces szT lb c f1).1).count T = 0) := by
    intro f1
    refine count_eq_zero_of_short hT ?_
    intro s hs
    rcases List.mem_append.mp hs with h | h
    · exact mem_gapPieces_length h
    · rcases mem_fmtPieces_length h with h2 | rfl
      · exact h2
      · omega
  unfold charStep
  simp only []
  split
  · -- space character branch
    rcases hfa : findArrow arrows c.top c.x0 with _ | ⟨idx, a⟩
    · -- no arrow: swallowed space or emit
      rcases next with _ | nc
      · dsimp only
        exact Or.inl ⟨rfl, hemit _⟩
      · dsimp only
        by_cases hswallow : nextIsSubOrSuper szT lb nc = true
        · rw [if_pos hswallow]
          exact Or.inl ⟨rfl, hgp _ _⟩
        · rw [if_neg hswallow]
          exact Or.inl ⟨rfl, hemit _⟩
    · dsimp only
      by_cases hmem : ins.contains idx
      · rw [if_pos hmem]
        exact Or.inl ⟨rfl, hgp _ _⟩
      · rw [if_neg hmem]
        refine Or.inr ⟨idx, a, rfl, ?_, rfl, ?_⟩
        · intro hmm
          exact hmem (List.elem_eq_true_of_mem hmm)
        · rw [List.count_append, List.count_append, hgp]
          have h2 : (if fmtAfterGap (wordSpaceFires szT lb bs c p) f ≠
              Fmt.normal then [closeBracePiece] else []).count T = 0 := by
            refine count_eq_zero_of_short hT ?_
            intro s hs
            split at hs <;>
              simp only [List.mem_singleton, List.not_mem_nil] at hs
            subst hs
            simp [closeBracePiece]
          rw [h2]
          simp only [Nat.zero_add]
          rcases eq_or_ne T (arrowToken a.direction) with heq | hne
          · rw [if_pos heq, heq]
            simp
          · rw [if_neg hne, List.count_eq_zero]
            simp only [List.mem_singleton]
            exact hne
  · -- non-space character: formatting fall-through
    exact Or.inl ⟨rfl, hemit _⟩

theorem runLine_count_zero (arrows : List Arrow) (szT lb bs : ℚ)
    (hnodup : (arrows.map Arrow.direction).Nodup) (i : ℕ)
    (hi : i < arrows.length)
    (hTlen : 4 ≤ (arrowToken (arrows.get ⟨i, hi⟩).direction).length) :
    ∀ (chars : List CharRec) (p : Option ℚ) (f : Fmt) (ins : List ℕ),
      (∀ c ∈ chars, c.text.length ≤ 1) → i ∈ ins →
      (runLine arrows szT lb bs chars p f ins).count
        (arrowToken (arrows.get ⟨i, hi⟩).direction) = 0 := by
  intro chars
  induction chars with
  | nil =>
      intro p f ins _ _
      unfold runLine
      split
      · rw [List.count_eq_zero]
        simp only [List.mem_singleton]
        intro heq
        rw [heq] at hTlen
        simp [closeBracePiece] at hTlen
      · rfl
  | cons c rest ih =>
      intro p f ins htext hins
      unfold runLine
      rw [List.count_append]
      rcases charStep_count arrows szT lb bs c rest.head? p f ins _ hTlen
          (htext c (List.mem_cons_self c rest)) with
        ⟨hins2, hcnt⟩ | ⟨idx, a, hfa, hnm, hins2, hcnt⟩
      · rw [hcnt, hins2]
        simpa using ih _ _ _ (fun x hx => htext x (List.mem_cons_of_mem c hx))
          hins
      · have hne : idx ≠ i := fun h => hnm (h ▸ hins)
        have hdir := direction_ne_of_ne_idx hnodup (findArrow_get? hfa) hi hne
        rw [hcnt, if_neg (fun h => hdir (arrowToken_injective h.symm)), hins2]
        simpa using ih _ _ _ (fun x hx => htext x (List.mem_cons_of_mem c hx))
          (List.mem_cons_of_mem idx hins)

theorem runLine_count_le_one (arrows : List Arrow) (szT lb bs : ℚ)
    (hnodup : (arrows.map Arrow.direction).Nodup) (i : ℕ)
    (hi : i < arrows.length)
    (hTlen : 4 ≤ (arrowToken (arrows.get ⟨i, hi⟩).direction).length) :
    ∀ (chars : List CharRec) (p : Option ℚ) (f : Fmt) (ins : List ℕ),
      (∀ c ∈ chars, c.text.length ≤ 1) →
      (runLine arrows szT lb bs chars p f ins).count
        (arrowToken (arrows.get ⟨i, hi⟩).direction) ≤ 1 := by
  intro chars
  induction chars with
  | nil =>
      intro p f ins _
      unfold runLine
      split
      · rw [List.count_eq_zero.mpr]
        · omega
        · simp only [List.mem_singleton]
          intro heq
          rw [heq] at hTlen
          simp [closeBracePiece] at hTlen
      · simp
  | cons c rest ih =>
      intro p f ins htext
      unfold runLine
      rw [List.count_append]
      have htrest : ∀ x ∈ rest, x.text.length ≤ 1 :=
        fun x hx => htext x (List.mem_cons_of_mem c hx)
      rcases charStep_count arrows szT lb bs c rest.head? p f ins _ hTlen
          (htext c (List.mem_cons_self c rest)) with
        ⟨hins2, hcnt⟩ | ⟨idx, a, hfa, hnm, hins2, hcnt⟩
      · rw [hcnt, hins2]
        simpa using ih _ _ _ htrest
      · rcases eq_or_ne (arrowToken (arrows.get ⟨i, hi⟩).direction)
            (arrowToken a.direction) with heq | hne
        · have hidx : idx = i := by
            by_contra hne2
            exact direction_ne_of_ne_idx hnodup (findArrow_get? hfa) hi hne2
              (arrowToken_injective heq.symm)
          rw [hcnt, if_pos heq, hins2, hidx]
          have h0 := runLine_count_zero arrows szT lb bs hnodup i hi hTlen
            rest (charStep arrows szT lb bs c rest.head? p f ins).2.1
            (charStep arrows szT lb bs c rest.head? p f ins).2.2.1
            (i :: ins) htrest (List.mem_cons_self i ins)
          omega
        · rw [hcnt, if_neg hne, hins2]
          simpa using ih _ _ _ htrest

/-- C2 counterexample: one right arrow (y 106, span 14..22) and two
reconstructed lines (tops 100 and 112) each containing a space character
inside the arrow's span: both lines are within 10pt of the arrow, the
`inserted` set is re-created per line, and the arrow's token is emitted
twice in the full output of `reconstruct_formulas`. -/
theorem C2_counterexample :
    reconstructFormulas
      [⟨['A'], 10, 16, 100, 108, 10⟩, ⟨[' '], 16, 20, 100, 108, 10⟩,
       ⟨['B'], 20, 26, 100, 108, 10⟩, ⟨['A'], 10, 16, 112, 120, 10⟩,
       ⟨[' '], 16, 20, 112, 120, 10⟩, ⟨['B'], 20, 26, 112, 120, 10⟩]
      10 100 [⟨14, 22, 106, ['-', '>'], 8⟩] = "A -> B\nA -> B".data ∧
    countInfix ['-', '>'] "A -> B\nA -> B".data = 2 := by
  exact ⟨by decide, by decide⟩

/-- C2 amended: within a single reconstructed line, each arrow's token
is emitted at most once: for any characters of one line (single-glyph
texts), any state, and arrows with pairwise-distinct direction tokens, the
per-line character loop of `reconstruct_formulas` (which creates a fresh
`inserted` set per line) emits the padded token of each arrow at most once.
Across lines the set is re-created, so the same arrow can be emitted once
per nearby line. -/
theorem C2_amended (arrows : List Arrow) (szT lb bs : ℚ)
    (chars : List CharRec) (htext : ∀ c ∈ chars, c.text.length ≤ 1)
    (hdir : ∀ a ∈ arrows, 2 ≤ a.direction.length)
    (hnodup : (arrows.map Arrow.direction).Nodup) (i : ℕ)
    (hi : i < arrows.length) :
    (runLine arrows szT lb bs chars none Fmt.normal []).count
      (arrowToken (arrows.get ⟨i, hi⟩).direction) ≤ 1 := by
  have hTlen : 4 ≤ (arrowToken (arrows.get ⟨i, hi⟩).direction).length := by
    have := hdir _ (arrows.get_mem i hi)
    simp only [arrowToken, List.length_cons, List.length_append,
      List.length_singleton]
    omega
  exact runLine_count_le_one arrows szT lb bs hnodup i hi hTlen chars none
    Fmt.normal [] htext

/-- C2 amended witness: the first line of the counterexample emits the
arrow token exactly once, hence at most once. -/
theorem C2_amended_witness :
    (runLine [⟨14, 22, 106, ['-', '>'], 8⟩] 8 100 10
      [⟨['A'], 10, 16, 100, 108, 10⟩, ⟨[' '], 16, 20, 100, 108, 10⟩,
       ⟨['B'], 20, 26, 100, 108, 10⟩] none Fmt.normal []).count
      (arrowToken (([⟨14, 22, 106, ['-', '>'], 8⟩] :
        List Arrow).get ⟨0, Nat.one_pos⟩).direction) ≤ 1 :=
  C2_amended [⟨14, 22, 106, ['-', '>'], 8⟩] 8 100 10
    [⟨['A'], 10, 16, 100, 108, 10⟩, ⟨[' '], 16, 20, 100, 108, 10⟩,
     ⟨['B'], 20, 26, 100, 108, 10⟩] (by decide) (by decide) (by decide)
    0 Nat.one_pos

/-! Support for the `filter_text` idempotence analysis (C3). -/

theorem head?_dropWhile_not (p : α → Bool) :
    ∀ (l : List α) (a : α), (l.dropWhile p).head? = some a → p a = false := by
  intro l
  induction l with
  | nil => intro a h; cases h
  | cons x xs ih =>
      intro a h
      by_cases hp : p x
      · rw [List.dropWhile_cons_of_pos hp] at h
        exact ih a h
      · rw [List.dropWhile_cons_of_neg hp] at h
        simp only [List.head?_cons, Option.some.injEq] at h
        subst h
        exact Bool.eq_false_iff.mpr hp

theorem lstrip_eq_self_of_head {z : PyStr}
    (h : ∀ c, z.head? = some c → isPySpace c = false) : pyLstrip z = z := by
  cases z with
  | nil => rfl
  | cons c rest =>
      unfold pyLstrip
      rw [List.dropWhile_cons_of_neg]
      rw [h c rfl]
      simp

theorem pyLstrip_idem (s : PyStr) : pyLstrip (pyLstrip s) = pyLstrip s :=
  List.dropWhile_idempotent _ _

theorem pyRstrip_idem (s : PyStr) : pyRstrip (pyRstrip s) = pyRstrip s := by
  unfold pyRstrip
  rw [List.reverse_reverse, List.dropWhile_idempotent]

theorem pyRstrip_front (s : PyStr) : pyRstrip s <+: s := by
  have h := List.dropWhile_suffix (l := s.reverse) isPySpace
  have h2 := List.IsSuffix.reverse h
  rwa [List.reverse_reverse] at h2

theorem head?_eq_of_front {u w : List α} (h : u <+: w) (hu : u ≠ []) :
    w.head? = u.head? := by
  obtain ⟨t, rfl⟩ := h
  cases u with
  | nil => exact absurd rfl hu
  | cons c rest => rfl

theorem pyStrip_idem (s : PyStr) : pyStrip (pyStrip s) = pyStrip s := by
  have hl : pyLstrip (pyStrip s) = pyStrip s := by
    apply lstrip_eq_self_of_head
    intro c hc
    have hpre : pyRstrip (pyLstrip s) <+: pyLstrip s := pyRstrip_front _
    have hne : pyStrip s ≠ [] := by
      intro h0
      rw [h0] at hc
      cases hc
    have hhead : (pyLstrip s).head? = (pyStrip s).head? :=
      head?_eq_of_front hpre hne
    have : (pyLstrip (pyLstrip s)).head? = some c := by
      rw [pyLstrip_idem, hhead, hc]
    exact head?_dropWhile_not isPySpace (pyLstrip s) c this
  show pyRstrip (pyLstrip (pyStrip s)) = pyStrip s
  rw [hl]
  exact pyRstrip_idem _

theorem length_pyLstrip_le (s : PyStr) : (pyLstrip s).length ≤ s.length :=
  List.Sublist.length_le (List.IsSuffix.sublist (List.dropWhile_suffix _))

theorem length_pyRstrip_le (s : PyStr) : (pyRstrip s).length ≤ s.length :=
  List.IsPrefix.length_le (pyRstrip_front s)

theorem pyStrip_eq_self_parts {m : PyStr} (h : pyStrip m = m) :
    pyLstrip m = m ∧ pyRstrip m = m := by
  have hlen1 : (pyRstrip (pyLstrip m)).length ≤ (pyLstrip m).length :=
    length_pyRstrip_le _
  have hlen2 : (pyLstrip m).length ≤ m.length := length_pyLstrip_le m
  have hlen0 : (pyRstrip (pyLstrip m)).length = m.length := by
    rw [show pyRstrip (pyLstrip m) = pyStrip m from rfl, h]
  have hleq : (pyLstrip m).length = m.length := by omega
  have hl : pyLstrip m = m :=
    List.IsSuffix.eq_of_length (List.dropWhile_suffix _) hleq
  refine ⟨hl, ?_⟩
  have := h
  rw [show pyStrip m = pyRstrip (pyLstrip m) from rfl, hl] at this
  exact this

theorem head?_not_space {m : PyStr} (h : pyStrip m = m) :
    ∀ c, m.head? = some c → isPySpace c = false := by
  intro c hc
  have hl := (pyStrip_eq_self_parts h).1
  apply head?_dropWhile_not isPySpace m c
  rw [show m.dropWhile isPySpace = pyLstrip m from rfl, hl]
  exact hc

theorem getLast?_not_space {m : PyStr} (h : pyStrip m = m) :
    ∀ c, m.getLast? = some c → isPySpace c = false := by
  intro c hc
  have hr := (pyStrip_eq_self_parts h).2
  have hrev : m.reverse.dropWhile isPySpace = m.reverse := by
    have := congrArg List.reverse hr
    rwa [show (pyRstrip m).reverse =
      m.reverse.dropWhile isPySpace from by
        unfold pyRstrip
        rw [List.reverse_reverse]] at this
  apply head?_dropWhile_not isPySpace m.reverse c
  rw [hrev, List.head?_reverse]
  exact hc

theorem collapseWsAux_ws :
    ∀ (fuel : ℕ) (s : PyStr), s.length ≤ fuel →
      ∀ c ∈ collapseWsAux fuel s, isPySpace c = true → c = ' ' := by
  intro fuel
  induction fuel with
  | zero =>
      intro s hs c hc _
      interval_cases hlen : s.length
      · rw [List.length_eq_zero] at hlen
        subst hlen
        cases hc
  | succ n ih =>
      intro s hs c hc hsp
      cases s with
      | nil => cases hc
      | cons c0 rest =>
          unfold collapseWsAux at hc
          by_cases h0 : isPySpace c0
          · rw [if_pos h0] at hc
            rcases List.mem_cons.mp hc with rfl | hc2
            · rfl
            · refine ih _ ?_ c hc2 hsp
              calc (rest.dropWhile isPySpace).length
                  ≤ rest.length := List.Sublist.length_le
                    (List.IsSuffix.sublist (List.dropWhile_suffix _))
                _ ≤ n := by
                    simpa [Nat.succ_le_succ_iff] using hs
          · rw [if_neg h0] at hc
            rcases List.mem_cons.mp hc with rfl | hc2
            · exact absurd hsp (by simpa using h0)
            · refine ih _ ?_ c hc2 hsp
              simpa [Nat.succ_le_succ_iff] using hs

theorem mem_pyStrip {c : Char} {s : PyStr} (h : c ∈ pyStrip s) : c ∈ s := by
  unfold pyStrip at h
  have h1 : c ∈ pyLstrip s :=
    (List.IsPrefix.sublist (pyRstrip_front _)).mem h
  exact (List.IsSuffix.sublist (List.dropWhile_suffix _)).mem h1

theorem cleanLine_ws (cfg : RegexFilterConfig) (l : PyStr) :
    ∀ c ∈ cleanLine cfg l, isPySpace c = true → c = ' ' := by
  intro c hc hsp
  unfold cleanLine at hc
  have h1 := mem_pyStrip hc
  exact collapseWsAux_ws _ _ (le_refl _) c h1 hsp

theorem pyStrip_cleanLine (cfg : RegexFilterConfig) (l : PyStr) :
    pyStrip (cleanLine cfg l) = cleanLine cfg l :=
  pyStrip_idem _

theorem pyRstripNl_eq_self {m : PyStr} (h : pyStrip m = m) :
    pyRstripNl m = m := by
  unfold pyRstripNl
  cases hm : m.reverse with
  | nil =>
      have : m = [] := by simpa using congrArg List.reverse hm
      subst this
      rfl
  | cons c rest =>
      have hlast : m.getLast? = some c := by
        rw [← List.head?_reverse, hm]
        rfl
      have hns := getLast?_not_space h c hlast
      have hn : c ≠ '\n' := by
        intro h0
        rw [h0, show isPySpace '\n' = true from by decide] at hns
        cases hns
      have hr : c ≠ '\r' := by
        intro h0
        rw [h0, show isPySpace '\r' = true from by decide] at hns
        cases hns
      rw [List.dropWhile_cons_of_neg (by simp [hn, hr]), ← hm,
        List.reverse_reverse]

theorem processLines_good (cfg : RegexFilterConfig) :
    ∀ ls : List PyStr, (∀ l ∈ ls, cleanLine cfg l = l) →
      ∀ m ∈ processLines cfg ls, GoodLine cfg m := by
  intro ls
  induction ls with
  | nil =>
      intro _ m hm
      cases hm
  | cons l rest ih =>
      intro h m hm
      have hl : cleanLine cfg l = l := h l (List.mem_cons_self l rest)
      have hstrip : pyStrip l = l := by
        rw [← hl]
        exact pyStrip_cleanLine cfg l
      have hrnl : pyRstripNl l = l := pyRstripNl_eq_self hstrip
      have hrest : ∀ x ∈ rest, cleanLine cfg x = x :=
        fun x hx => h x (List.mem_cons_of_mem l hx)
      simp only [processLines, hrnl, hstrip] at hm
      by_cases hblank : l = []
      · rw [if_pos (by simp [hblank])] at hm
        rcases List.mem_cons.mp hm with rfl | hm2
        · exact Or.inl rfl
        · exact ih hrest m hm2
      · rw [if_neg (by simp [hblank])] at hm
        by_cases hf : shouldFilterLine cfg l = true
        · rw [if_pos hf] at hm
          exact ih hrest m hm
        · rw [if_neg hf, hl, if_neg (by simp [hblank])] at hm
          rcases List.mem_cons.mp hm with rfl | hm2
          · refine Or.inr ⟨hblank, hstrip, ?_, ?_, hl⟩
            · intro c hc hsp
              refine cleanLine_ws cfg m c ?_ hsp
              rw [show cleanLine cfg m = m from hl]
              exact hc
            · exact Bool.eq_false_iff.mpr hf
          · exact ih hrest m hm2

theorem processLines_id (cfg : RegexFilterConfig) :
    ∀ ls : List PyStr, (∀ m ∈ ls, GoodLine cfg m) →
      processLines cfg ls = ls := by
  intro ls
  induction ls with
  | nil => intro _; rfl
  | cons l rest ih =>
      intro h
      have hrest := fun x hx => h x (List.mem_cons_of_mem l hx)
      rcases h l (List.mem_cons_self l rest) with rfl | ⟨hne, hstrip, _, hf, hcl⟩
      · show processLines cfg ([] :: rest) = [] :: rest
        simp only [processLines]
        rw [if_pos (by decide), ih hrest]
      · simp only [processLines, pyRstripNl_eq_self hstrip, hstrip, hcl]
        rw [if_neg (by simp [hne]), if_neg (by simp [hf]),
          if_neg (by simp [hne]), ih hrest]

theorem collapseBlanks_mem :
    ∀ (ls : List PyStr) (b : Bool) (m : PyStr),
      m ∈ collapseBlanks b ls → m ∈ ls := by
  intro ls
  induction ls with
  | nil => intro b m hm; cases hm
  | cons l rest ih =>
      intro b m hm
      unfold collapseBlanks at hm
      by_cases hl : l.isEmpty
      · rw [if_pos hl] at hm
        split at hm
        · exact List.mem_cons_of_mem l (ih true m hm)
        · rcases List.mem_cons.mp hm with rfl | hm2
          · simp only [List.isEmpty_iff] at hl
            subst hl
            exact List.mem_cons_self [] rest
          · exact List.mem_cons_of_mem l (ih true m hm2)
      · rw [if_neg hl] at hm
        rcases List.mem_cons.mp hm with rfl | hm2
        · exact List.mem_cons_self m rest
        · exact List.mem_cons_of_mem l (ih false m hm2)

theorem collapseBlanks_true_head :
    ∀ (ls : List PyStr) (m : PyStr),
      (collapseBlanks true ls).head? = some m → m ≠ [] := by
  intro ls
  induction ls with
  | nil => intro m hm; cases hm
  | cons l rest ih =>
      intro m hm
      unfold collapseBlanks at hm
      by_cases hl : l.isEmpty
      · rw [if_pos hl, if_pos rfl] at hm
        exact ih m hm
      · rw [if_neg hl] at hm
        simp only [List.head?_cons, Option.some.injEq] at hm
        subst hm
        simpa using hl

theorem collapseBlanks_chain :
    ∀ (ls : List PyStr) (b : Bool),
      List.Chain' (fun a b => ¬(a = [] ∧ b = [])) (collapseBlanks b ls) := by
  intro ls
  induction ls with
  | nil => intro b; exact List.chain'_nil
  | cons l rest ih =>
      intro b
      unfold collapseBlanks
      by_cases hl : l.isEmpty
      · rw [if_pos hl]
        split
        · exact ih true
        · rw [List.chain'_cons']
          refine ⟨?_, ih true⟩
          intro y hy
          have := collapseBlanks_true_head rest y hy
          tauto
      · rw [if_neg hl]
        rw [List.chain'_cons']
        refine ⟨?_, ih false⟩
        intro y _
        simp only [List.isEmpty_iff] at hl
        tauto

theorem collapseBlanks_id :
    ∀ ls : List PyStr,
      List.Chain' (fun a b => ¬(a = [] ∧ b = [])) ls →
      collapseBlanks false ls = ls ∧
        ((∀ m, ls.head? = some m → m ≠ []) → collapseBlanks true ls = ls) := by
  intro ls
  induction ls with
  | nil => intro _; exact ⟨rfl, fun _ => rfl⟩
  | cons l rest ih =>
      intro hchain
      have hcr : List.Chain' _ rest := hchain.tail
      obtain ⟨ihf, iht⟩ := ih hcr
      constructor
      · by_cases hl : l = []
        · subst hl
          show collapseBlanks false ([] :: rest) = [] :: rest
          unfold collapseBlanks
          rw [if_pos (show List.isEmpty ([] : PyStr) = true by decide),
            if_neg (show ¬(false = true) by decide)]
          congr 1
          apply iht
          intro m hm
          have := (List.chain'_cons'.mp hchain).1 m hm
          tauto
        · unfold collapseBlanks
          rw [if_neg (by simpa using hl), ihf]
      · intro hhead
        have hl : l ≠ [] := hhead l rfl
        unfold collapseBlanks
        rw [if_neg (by simpa using hl), ihf]

theorem joinNl_nil : joinNl [] = [] := rfl

theorem joinNl_singleton (m : PyStr) : joinNl [m] = m := by
  simp [joinNl]

theorem joinNl_cons (m : PyStr) (ls : List PyStr) (h : ls ≠ []) :
    joinNl (m :: ls) = m ++ '\n' :: joinNl ls := by
  cases ls with
  | nil => exact absurd rfl h
  | cons x xs => simp [joinNl, List.intersperse]

theorem joinNl_eq_nil {ls : List PyStr} (h : joinNl ls = []) :
    ls = [] ∨ ls = [[]] := by
  cases ls with
  | nil => exact Or.inl rfl
  | cons m rest =>
      cases rest with
      | nil =>
          rw [joinNl_singleton] at h
          exact Or.inr (by rw [h])
      | cons x xs =>
          rw [joinNl_cons m (x :: xs) (by simp)] at h
          rcases List.append_eq_nil.mp h with ⟨_, h2⟩
          cases h2

theorem pyLstrip_append (a b : PyStr) :
    pyLstrip (a ++ b) =
      if (pyLstrip a).isEmpty then pyLstrip b else pyLstrip a ++ b :=
  List.dropWhile_append

theorem pyRstrip_append (a b : PyStr) :
    pyRstrip (a ++ b) =
      if (pyRstrip b).isEmpty then pyRstrip a else a ++ pyRstrip b := by
  unfold pyRstrip
  rw [List.reverse_append, List.dropWhile_append]
  by_cases hb : (b.reverse.dropWhile isPySpace).isEmpty
  · rw [if_pos hb, if_pos (by simpa using hb)]
  · rw [if_neg hb, if_neg (by simpa using hb), List.reverse_append]
    simp

theorem pyRstrip_cons_nl (z : PyStr) :
    pyRstrip ('\n' :: z) =
      if (pyRstrip z).isEmpty then [] else '\n' :: pyRstrip z := by
  have h := pyRstrip_append ['\n'] z
  simp only [List.singleton_append] at h
  rw [h]
  by_cases hz : (pyRstrip z).isEmpty
  · rw [if_pos hz, if_pos hz]
    decide
  · rw [if_neg hz, if_neg hz]

theorem pyLstrip_eq_self_of_strip {m : PyStr} (h : pyStrip m = m) :
    pyLstrip m = m := (pyStrip_eq_self_parts h).1

theorem pyRstrip_eq_self_of_strip {m : PyStr} (h : pyStrip m = m) :
    pyRstrip m = m := (pyStrip_eq_self_parts h).2

theorem pyLstrip_joinNl :
    ∀ cs : List PyStr, (∀ m ∈ cs, m = [] ∨ pyStrip m = m) →
      pyLstrip (joinNl cs) = joinNl (cs.dropWhile List.isEmpty) := by
  intro cs
  induction cs with
  | nil => intro _; rfl
  | cons m rest ih =>
      intro h
      have hrest := fun x hx => h x (List.mem_cons_of_mem m hx)
      rcases h m (List.mem_cons_self m rest) with rfl | hstrip
      · rw [List.dropWhile_cons_of_pos (by decide)]
        cases rest with
        | nil => rfl
        | cons x xs =>
            rw [joinNl_cons [] (x :: xs) (by simp), List.nil_append]
            rw [show pyLstrip ('\n' :: joinNl (x :: xs)) =
              pyLstrip (joinNl (x :: xs)) from
                List.dropWhile_cons_of_pos (by decide)]
            exact ih hrest
      · by_cases hm : m = []
        · subst hm
          rw [List.dropWhile_cons_of_pos (by decide)]
          cases rest with
          | nil => rfl
          | cons x xs =>
              rw [joinNl_cons [] (x :: xs) (by simp), List.nil_append]
              rw [show pyLstrip ('\n' :: joinNl (x :: xs)) =
                pyLstrip (joinNl (x :: xs)) from
                  List.dropWhile_cons_of_pos (by decide)]
              exact ih hrest
        · rw [List.dropWhile_cons_of_neg (by simpa using hm)]
          cases rest with
          | nil =>
              rw [joinNl_singleton]
              exact pyLstrip_eq_self_of_strip hstrip
          | cons x xs =>
              rw [joinNl_cons m (x :: xs) (by simp), pyLstrip_append,
                pyLstrip_eq_self_of_strip hstrip, if_neg (by simpa using hm)]

theorem dropTrailingEmpties_front (ls : List PyStr) :
    dropTrailingEmpties ls <+: ls := by
  have h := List.dropWhile_suffix (l := ls.reverse) List.isEmpty
  have h2 := List.IsSuffix.reverse h
  rwa [List.reverse_reverse] at h2

theorem dropTrailingEmpties_getLast {ls : List PyStr} {m : PyStr}
    (h : (dropTrailingEmpties ls).getLast? = some m) : m ≠ [] := by
  unfold dropTrailingEmpties at h
  rw [List.getLast?_reverse] at h
  have := head?_dropWhile_not List.isEmpty ls.reverse m h
  simpa using this

theorem dropTrailingEmpties_cons_of_ne {m : PyStr} {rest : List PyStr}
    (h : dropTrailingEmpties rest ≠ []) :
    dropTrailingEmpties (m :: rest) = m :: dropTrailingEmpties rest := by
  unfold dropTrailingEmpties at *
  rw [show (m :: rest).reverse = rest.reverse ++ [m] from by simp,
    List.dropWhile_append]
  rw [if_neg (by
    intro hempty
    apply h
    rw [List.isEmpty_iff] at hempty
    rw [hempty]
    rfl)]
  simp

theorem dropTrailingEmpties_eq_nil {rest : List PyStr}
    (h : dropTrailingEmpties rest = []) :
    ∀ m ∈ rest, m = [] := by
  intro m hm
  by_contra hne
  unfold dropTrailingEmpties at h
  have h2 : rest.reverse.dropWhile List.isEmpty = [] := by
    have := congrArg List.reverse h
    simpa using this
  have h3 : ∀ x ∈ rest.reverse, x.isEmpty :=
    fun x hx => List.dropWhile_eq_nil_iff.mp h2 x hx
  have := h3 m (by simpa using hm)
  simp only [List.isEmpty_iff] at this
  exact hne this

theorem joinNl_ne_nil {ls : List PyStr}
    (hlast : ∀ m, ls.getLast? = some m → m ≠ []) (hne : ls ≠ []) :
    joinNl ls ≠ [] := by
  intro h
  rcases joinNl_eq_nil h with rfl | rfl
  · exact hne rfl
  · exact hlast [] rfl rfl

theorem pyRstrip_joinNl :
    ∀ cs : List PyStr, (∀ m ∈ cs, m = [] ∨ pyStrip m = m) →
      pyRstrip (joinNl cs) = joinNl (dropTrailingEmpties cs) := by
  intro cs
  induction cs with
  | nil => intro _; rfl
  | cons m rest ih =>
      intro h
      have hrest := fun x hx => h x (List.mem_cons_of_mem m hx)
      have hm : m = [] ∨ pyStrip m = m := h m (List.mem_cons_self m rest)
      have hmr : pyRstrip m = m ∨ m = [] := by
        rcases hm with rfl | hstrip
        · exact Or.inr rfl
        · exact Or.inl (pyRstrip_eq_self_of_strip hstrip)
      cases rest with
      | nil =>
          rw [joinNl_singleton]
          unfold dropTrailingEmpties
          by_cases hme : m = []
          · subst hme
            rfl
          · rw [show ([m] : List PyStr).reverse = [m] from rfl,
              List.dropWhile_cons_of_neg (by simpa using hme)]
            rcases hmr with h1 | h1
            · rw [h1]
              simp [joinNl_singleton]
            · exact absurd h1 hme
      | cons x xs =>
          rw [joinNl_cons m (x :: xs) (by simp), pyRstrip_append,
            pyRstrip_cons_nl]
          have ihr : pyRstrip (joinNl (x :: xs)) =
              joinNl (dropTrailingEmpties (x :: xs)) := ih hrest
          by_cases hdte : dropTrailingEmpties (x :: xs) = []
          · have hall : ∀ y ∈ x :: xs, y = [] := dropTrailingEmpties_eq_nil hdte
            have hz : (pyRstrip (joinNl (x :: xs))).isEmpty = true := by
              rw [ihr, hdte]
              rfl
            rw [if_pos (by rw [if_pos hz]; rfl)]
            -- all of the tail is blank: the result is `pyRstrip m`, and
            -- the trailing-empty drop of `m :: x :: xs` keeps at most `m`
            have hrevdrop : ((x :: xs).reverse ++ [m]).dropWhile
                List.isEmpty = ([m] : List PyStr).dropWhile List.isEmpty := by
              rw [List.dropWhile_append]
              rw [if_pos]
              have : (x :: xs).reverse.dropWhile List.isEmpty = [] := by
                rw [List.dropWhile_eq_nil_iff]
                intro y hy
                have := hall y (List.mem_reverse.mp hy)
                simp [this]
              rw [this]
              rfl
            unfold dropTrailingEmpties
            rw [show (m :: x :: xs).reverse =
              (x :: xs).reverse ++ [m] from by simp, hrevdrop]
            by_cases hme : m = []
            · subst hme
              rfl
            · rw [show ([m] : List PyStr).dropWhile List.isEmpty = [m] from
                List.dropWhile_cons_of_neg (by simpa using hme)]
              rcases hmr with h1 | h1
              · rw [h1]
                simp [joinNl_singleton]
              · exact absurd h1 hme
          · have hlast : ∀ y, (dropTrailingEmpties (x :: xs)).getLast? =
                some y → y ≠ [] := fun y hy => dropTrailingEmpties_getLast hy
            have hjoin : joinNl (dropTrailingEmpties (x :: xs)) ≠ [] :=
              joinNl_ne_nil hlast hdte
            have hz : (pyRstrip (joinNl (x :: xs))).isEmpty = false := by
              rw [ihr]
              simpa [List.isEmpty_iff] using hjoin
            rw [if_neg (by rw [if_neg (by simp [hz])]; simp)]
            rw [if_neg (by simp [hz]), ihr,
              dropTrailingEmpties_cons_of_ne hdte,
              joinNl_cons m (dropTrailingEmpties (x :: xs)) hdte]

theorem pySplitlinesAux_no_nl :
    ∀ (s : PyStr), (∀ c ∈ s, c ≠ '\n') →
      ∀ acc, pySplitlinesAux acc s = [acc.reverse ++ s] := by
  intro s
  induction s with
  | nil => intro _ acc; simp [pySplitlinesAux]
  | cons c rest ih =>
      intro h acc
      have hc : c ≠ '\n' := h c (List.mem_cons_self c rest)
      have hrest : ∀ x ∈ rest, x ≠ '\n' :=
        fun x hx => h x (List.mem_cons_of_mem c hx)
      show pySplitlinesAux acc (c :: rest) = [acc.reverse ++ c :: rest]
      unfold pySplitlinesAux
      rw [if_neg hc, ih hrest (c :: acc)]
      simp

theorem pySplitlinesAux_cons (acc : List Char) (c : Char) (rest : PyStr) :
    pySplitlinesAux acc (c :: rest) =
      if c = '\n' then
        acc.reverse :: (if rest.isEmpty then [] else pySplitlinesAux [] rest)
      else pySplitlinesAux (c :: acc) rest := rfl

theorem pySplitlinesAux_append {m : PyStr} (hm : ∀ c ∈ m, c ≠ '\n') :
    ∀ (acc : List Char) (t : PyStr),
      pySplitlinesAux acc (m ++ '\n' :: t) =
        (acc.reverse ++ m) ::
          (if t.isEmpty then [] else pySplitlinesAux [] t) := by
  induction m with
  | nil =>
      intro acc t
      show pySplitlinesAux acc ('\n' :: t) = _
      rw [pySplitlinesAux_cons, if_pos rfl]
      simp only [List.append_nil]
  | cons c m' ih =>
      intro acc t
      have hc : c ≠ '\n' := hm c (List.mem_cons_self c m')
      have hm' : ∀ x ∈ m', x ≠ '\n' :=
        fun x hx => hm x (List.mem_cons_of_mem c hx)
      show pySplitlinesAux acc (c :: (m' ++ '\n' :: t)) = _
      rw [pySplitlinesAux_cons, if_neg hc, ih hm' (c :: acc) t]
      simp only [List.reverse_cons, List.append_assoc, List.singleton_append]

theorem pySplitlines_joinNl :
    ∀ cs : List PyStr, (∀ m ∈ cs, ∀ c ∈ m, c ≠ '\n') →
      (∀ m, cs.getLast? = some m → m ≠ []) →
      pySplitlines (joinNl cs) = cs := by
  intro cs
  induction cs with
  | nil => intro _ _; rfl
  | cons m rest ih =>
      intro hnl hlast
      have hmn : ∀ c ∈ m, c ≠ '\n' := hnl m (List.mem_cons_self m rest)
      cases rest with
      | nil =>
          rw [joinNl_singleton]
          have hme : m ≠ [] := hlast m rfl
          unfold pySplitlines
          rw [if_neg (by simpa using hme)]
          rw [pySplitlinesAux_no_nl m hmn []]
          simp
      | cons x xs =>
          have hlast2 : ∀ y, (x :: xs).getLast? = some y → y ≠ [] := by
            intro y hy
            apply hlast
            rw [List.getLast?_cons_cons]
            exact hy
          have hnl2 : ∀ y ∈ x :: xs, ∀ c ∈ y, c ≠ '\n' :=
            fun y hy => hnl y (List.mem_cons_of_mem m hy)
          have hjne : joinNl (x :: xs) ≠ [] :=
            joinNl_ne_nil hlast2 (by simp)
          rw [joinNl_cons m (x :: xs) (by simp)]
          unfold pySplitlines
          rw [if_neg (by simp)]
          rw [pySplitlinesAux_append hmn [] (joinNl (x :: xs))]
          rw [if_neg (by simpa [List.isEmpty_iff] using hjne)]
          have ihx := ih hnl2 hlast2
          unfold pySplitlines at ihx
          rw [if_neg (by simpa [List.isEmpty_iff] using hjne)] at ihx
          rw [ihx]
          simp

/-- The fixed-point form of a `filter_text` pass: under the hypothesis that
every line of the input is a fixed point of `clean_line`, a second
`filter_text` pass is the identity on the first pass's output. -/
theorem filterText_fixed (cfg : RegexFilterConfig) (x : PyStr)
    (h : ∀ l ∈ pySplitlines x, cleanLine cfg l = l) :
    filterText cfg (filterText cfg x) = filterText cfg x := by
  have hgood : ∀ m ∈ processLines cfg (pySplitlines x), GoodLine cfg m :=
    processLines_good cfg (pySplitlines x) h
  set ps := processLines cfg (pySplitlines x) with hps
  set cs := collapseBlanks false ps with hcs
  have hgood2 : ∀ m ∈ cs, GoodLine cfg m :=
    fun m hm => hgood m (collapseBlanks_mem ps false m hm)
  have hchain : List.Chain' (fun a b => ¬(a = [] ∧ b = [])) cs :=
    collapseBlanks_chain ps false
  have hstripped : ∀ m ∈ cs, m = [] ∨ pyStrip m = m := by
    intro m hm
    rcases hgood2 m hm with h1 | h1
    · exact Or.inl h1
    · exact Or.inr h1.2.1
  -- the output equals the join of the blank-trimmed collapsed lines
  have hdle : ∀ m ∈ cs.dropWhile List.isEmpty, m = [] ∨ pyStrip m = m :=
    fun m hm => hstripped m
      ((List.IsSuffix.sublist (List.dropWhile_suffix _)).mem hm)
  have hy : filterText cfg x =
      joinNl (dropTrailingEmpties (cs.dropWhile List.isEmpty)) := by
    show pyStrip (joinNl cs) = _
    show pyRstrip (pyLstrip (joinNl cs)) = _
    rw [pyLstrip_joinNl cs hstripped, pyRstrip_joinNl _ hdle]
  set cs2 := dropTrailingEmpties (cs.dropWhile List.isEmpty) with hcs2
  have hmem2 : ∀ m ∈ cs2, m ∈ cs := by
    intro m hm
    have h1 := (List.IsPrefix.sublist (dropTrailingEmpties_front _)).mem hm
    exact (List.IsSuffix.sublist (List.dropWhile_suffix _)).mem h1
  have hgood3 : ∀ m ∈ cs2, GoodLine cfg m := fun m hm => hgood2 m (hmem2 m hm)
  have hchain2 : List.Chain' (fun a b => ¬(a = [] ∧ b = [])) cs2 :=
    List.Chain'.prefix (List.Chain'.suffix hchain (List.dropWhile_suffix _))
      (dropTrailingEmpties_front _)
  have hlast2 : ∀ m, cs2.getLast? = some m → m ≠ [] :=
    fun m hm => dropTrailingEmpties_getLast hm
  have hnl2 : ∀ m ∈ cs2, ∀ c ∈ m, c ≠ '\n' := by
    intro m hm c hc heq
    rcases hgood3 m hm with rfl | h1
    · cases hc
    · have := h1.2.2.1 c hc (by rw [heq]; decide)
      rw [heq] at this
      cases this
  have hsplit : pySplitlines (joinNl cs2) = cs2 :=
    pySplitlines_joinNl cs2 hnl2 hlast2
  rw [hy]
  show pyStrip (joinNl (collapseBlanks false
    (processLines cfg (pySplitlines (joinNl cs2))))) = joinNl cs2
  rw [hsplit, processLines_id cfg cs2 hgood3,
    (collapseBlanks_id cs2 hchain2).1]
  have hstr : pyStrip (joinNl cs2) = joinNl cs2 := by
    rw [← hy]
    show pyStrip (pyStrip (joinNl cs)) = pyStrip (joinNl cs)
    exact pyStrip_idem _
  exact hstr

/-- C3 counterexample: `filter_text` is not idempotent: on the input
`(cid:5)123` the first pass strips the inline CID artifact and keeps the
line as `123`, but a second pass then removes `123` as a standalone-number
line, yielding the empty string. -/
theorem C3_counterexample :
    filterText defaultRegexConfig "(cid:5)123".data = "123".data ∧
    filterText defaultRegexConfig "123".data = [] := by
  exact ⟨by decide, by decide⟩

/-- C3 amended: with the default configuration, `filter_text` is
idempotent on every input whose lines are each a fixed point of
`clean_line` (in particular on text free of inline CID artifacts, LaTeX
page codes, empty group markers, long dot runs and unnormalized
whitespace); in general a `clean_line` rewrite can expose a kept line to
second-pass removal, so unrestricted idempotence fails. -/
theorem C3_amended (x : PyStr)
    (h : ∀ l ∈ pySplitlines x, cleanLine defaultRegexConfig l = l) :
    filterText defaultRegexConfig (filterText defaultRegexConfig x) =
      filterText defaultRegexConfig x :=
  filterText_fixed defaultRegexConfig x h

/-- C3 amended witness: a concrete already-clean text (with a mirrored
watermark line that gets removed and a resulting double blank) is filtered
to a fixed point: the second pass changes nothing. -/
theorem C3_amended_witness :
    (∀ l ∈ pySplitlines "Q1. State two observations.\nNIGRAM SIHT NI\n\n2 marks".data,
      cleanLine defaultRegexConfig l = l) ∧
    filterText defaultRegexConfig (filterText defaultRegexConfig
      "Q1. State two observations.\nNIGRAM SIHT NI\n\n2 marks".data) =
      filterText defaultRegexConfig
        "Q1. State two observations.\nNIGRAM SIHT NI\n\n2 marks".data :=
  ⟨by decide, C3_amended
    "Q1. State two observations.\nNIGRAM SIHT NI\n\n2 marks".data (by decide)⟩

/-- C8 amended: `_looks_like_mirrored_warning` flags a line exactly
when it has at least one token and the mirrored-token count reaches
`max(2, n // 2)` where `n` is the token count and `//` is floor division —
so a line with 2 mirrored tokens out of 5 IS flagged. -/
theorem C8_amended (line : PyStr) :
    looksLikeMirroredWarning line = true ↔
      (wsTokens (pyStrip line) ≠ [] ∧
        max 2 ((wsTokens (pyStrip line)).length / 2) ≤
          mirroredCount (wsTokens (pyStrip line))) := by
  by_cases h : wsTokens (pyStrip line) = [] <;>
    simp [looksLikeMirroredWarning, h]

end PdfProc
